import Mathlib

/-!
Verification development for the gotranx ODE model-assembly and code-generation
pipeline.  The definitions below are a shallow embedding of
`src/gotranx/ode.py` and `src/gotranx/codegen/base.py`.  Data carriers that
live in modules not present in the source tree (`atoms.py`,
`ode_component.py`, sympy expressions, the stdlib `graphlib` sorter) are
modelled at their interface, following the specification's description; each
such definition carries a doc comment saying so.
-/

namespace Gotranx

/-- Modelled from the spec: sympy symbolic expressions (section 9 calls for a
tagged-variant expression type with free-variable traversal).  A symbol is
identified by its name string, mirroring `sympy.Symbol`. -/
inductive SymExpr where
  | num (n : Int)
  | sym (s : String)
  | add (a b : SymExpr)
  | mul (a b : SymExpr)
  | neg (a : SymExpr)
deriving DecidableEq, Repr, Inhabited

/-- Append a name to an accumulator unless already present (keeps first
occurrences, preserving left-to-right traversal order). -/
def pushNew (acc : List String) (x : String) : List String :=
  if x ∈ acc then acc else acc ++ [x]

/-- Free symbol names of an expression, in traversal order, without repeats. -/
def SymExpr.collect : SymExpr → List String
  | .num _ => []
  | .sym s => [s]
  | .add a b => a.collect ++ b.collect
  | .mul a b => a.collect ++ b.collect
  | .neg a => a.collect

/-- Modelled from the spec: the dependency names of an assignment's value are
the free symbol names occurring in its expression (`atoms.py` is not in the
source tree; spec section 4.3 "each assignment ... depends on every free
symbol name in its expression"). -/
def SymExpr.dependencies (e : SymExpr) : List String :=
  e.collect.foldl pushNew []

/-- Modelled from the spec: substitute every free symbol whose name is bound
in the map by the bound canonical symbol (spec section 4.3, step 4:
"rewrite every assignment's expression so that all free-symbol references use
the canonical per-ODE symbol objects"). -/
def SymExpr.resolve (m : List (String × String)) : SymExpr → SymExpr
  | .num n => .num n
  | .sym s =>
      match m.lookup s with
      | some v => .sym v
      | none => .sym s
  | .add a b => .add (a.resolve m) (b.resolve m)
  | .mul a b => .mul (a.resolve m) (b.resolve m)
  | .neg a => .neg (a.resolve m)

/-- Modelled from the spec: a State atom (`atoms.py` is not in the source
tree): `name`, numeric initial `value`, and a bound symbolic handle. -/
structure State where
  name : String
  value : Int
  symbol : String
deriving DecidableEq, Repr, Inhabited

/-- Modelled from the spec: a Parameter atom: `name`, numeric default
`value`, and a bound symbolic handle. -/
structure Parameter where
  name : String
  value : Int
  symbol : String
deriving DecidableEq, Repr, Inhabited

/-- Modelled from the spec: an Intermediate atom: `name`, a symbolic
expression over other atoms' symbols, and a bound symbolic handle. -/
structure Intermediate where
  name : String
  expr : SymExpr
  symbol : String
deriving DecidableEq, Repr, Inhabited

/-- Modelled from the spec: a StateDerivative atom: `name`, its defining
expression, the owning `State`, and a bound symbolic handle. -/
structure StateDerivative where
  name : String
  expr : SymExpr
  state : State
  symbol : String
deriving DecidableEq, Repr, Inhabited

/-- Modelled from the spec: an Assignment is an Intermediate or a
StateDerivative (glossary: "an atom whose value is defined by a symbolic
expression over other atoms"). -/
inductive Assignment where
  | interm (i : Intermediate)
  | deriv (d : StateDerivative)
deriving DecidableEq, Repr, Inhabited

def Assignment.name : Assignment → String
  | .interm i => i.name
  | .deriv d => d.name

def Assignment.expr : Assignment → SymExpr
  | .interm i => i.expr
  | .deriv d => d.expr

def Assignment.symbol : Assignment → String
  | .interm i => i.symbol
  | .deriv d => d.symbol

/-- Dependency names of an assignment, as consumed by `sort_assignments`
(`assignment.value.dependencies` in `ode.py`). -/
def Assignment.deps (a : Assignment) : List String :=
  a.expr.dependencies

/-- Rewrite only the expression of an assignment (atoms keep their identity;
spec section 4.3 step 4). -/
def Assignment.resolve_expression (m : List (String × String)) :
    Assignment → Assignment
  | .interm i => .interm { i with expr := i.expr.resolve m }
  | .deriv d => .deriv { d with expr := d.expr.resolve m }

/-- Atom: the union of the four named atom kinds, as stored in the ODE's
name-to-atom lookup table. -/
inductive Atom where
  | state (s : State)
  | param (p : Parameter)
  | interm (i : Intermediate)
  | deriv (d : StateDerivative)
deriving DecidableEq, Repr, Inhabited

def Atom.toAssignment : Atom → Option Assignment
  | .interm i => some (.interm i)
  | .deriv d => some (.deriv d)
  | _ => none

/-- Modelled from the spec: a Component is a named immutable bag of states,
parameters and assignments (`ode_component.py` is not in the source tree;
spec section 3).  The frozensets are modelled as lists. -/
structure Component where
  name : String
  states : List State
  parameters : List Parameter
  assignments : List Assignment
deriving DecidableEq, Repr, Inhabited

/-- The intermediates of a component (the Intermediate members of its
assignment set). -/
def Component.intermediates (c : Component) : List Intermediate :=
  c.assignments.filterMap fun a =>
    match a with
    | .interm i => some i
    | .deriv _ => none

/-- The state derivatives of a component (the StateDerivative members of its
assignment set). -/
def Component.state_derivatives (c : Component) : List StateDerivative :=
  c.assignments.filterMap fun a =>
    match a with
    | .interm _ => none
    | .deriv d => some d

/-- Modelled from the spec: `is_complete()` is true iff the set of state
names equals the set of state names owned by the state derivatives
(spec section 4.2). -/
def Component.is_complete (c : Component) : Bool :=
  decide ((∀ s ∈ c.states, s.name ∈ c.state_derivatives.map (fun d => d.state.name)) ∧
    (∀ d ∈ c.state_derivatives, d.state.name ∈ c.states.map State.name))

/-- Modelled from the spec: the states of a component that have no matching
state derivative (used for the `ComponentNotComplete` error payload). -/
def Component.states_without_derivatives (c : Component) : List State :=
  c.states.filter fun s =>
    decide (¬ s.name ∈ c.state_derivatives.map (fun d => d.state.name))

/-- The structural/semantic construction errors of the assembler
(`exceptions.py` is not in the source tree; payloads follow the spec's
error descriptions). -/
inductive OdeError where
  | componentNotComplete (component_name : String)
      (missing_state_derivatives : List String)
  | duplicateSymbol (names : List String)
deriving DecidableEq, Repr, Inhabited

/-- Embeds `check_components` of `ode.py`: fail on the first component that
is not complete, reporting its name and its states missing derivatives. -/
def check_components : List Component → Except OdeError Unit
  | [] => .ok ()
  | c :: rest =>
      if c.is_complete then check_components rest
      else .error (.componentNotComplete c.name
        (c.states_without_derivatives.map State.name))

/-- Update a name-keyed association list the way a Python dict assignment
does: overwrite the value at an existing key (keeping its position), else
append the binding. -/
def dictInsert {β : Type} (m : List (String × β)) (k : String) (v : β) :
    List (String × β) :=
  if m.any (fun kv => kv.1 = k) then
    m.map (fun kv => if kv.1 = k then (k, v) else kv)
  else m ++ [(k, v)]

/-- The atoms of one component in the order `gather_atoms` visits them:
parameters, states, intermediates, state derivatives. -/
def componentAtoms (c : Component) : List Atom :=
  c.parameters.map Atom.param ++ c.states.map Atom.state ++
    c.intermediates.map Atom.interm ++ c.state_derivatives.map Atom.deriv

def Atom.name : Atom → String
  | .state s => s.name
  | .param p => p.name
  | .interm i => i.name
  | .deriv d => d.name

def Atom.symbol : Atom → String
  | .state s => s.symbol
  | .param p => p.symbol
  | .interm i => i.symbol
  | .deriv d => d.symbol

/-- The flat `symbol_names` list `gather_atoms` accumulates. -/
def gatherNames (components : List Component) : List String :=
  components.flatMap fun c => (componentAtoms c).map Atom.name

/-- The `symbols` dict `gather_atoms` accumulates (later bindings of the
same name overwrite earlier ones, as in a Python dict). -/
def gatherSymbols (components : List Component) : List (String × String) :=
  (components.flatMap componentAtoms).foldl
    (fun m a => dictInsert m a.name a.symbol) []

/-- The `lookup` dict `gather_atoms` accumulates. -/
def gatherLookup (components : List Component) : List (String × Atom) :=
  (components.flatMap componentAtoms).foldl
    (fun m a => dictInsert m a.name a) []

/-- Embeds `gather_atoms` of `ode.py`: one pass over the components, in
order parameters, states, intermediates, state derivatives, producing the
flat name list, the name-to-symbol dict and the name-to-atom dict. -/
def gather_atoms (components : List Component) :
    List String × List (String × String) × List (String × Atom) :=
  (gatherNames components, gatherSymbols components, gatherLookup components)

/-- Embeds `find_duplicates` of `ode.py`: single pass with a seen-set and a
duplicate list; the returned Python set is modelled as the duplicate list
with repeats removed (first occurrences kept). -/
def find_duplicates (x : List String) : List String :=
  ((x.foldl
    (fun sd xi =>
      if xi ∈ sd.1 then (sd.1, sd.2 ++ [xi]) else (sd.1 ++ [xi], sd.2))
    (([] : List String), ([] : List String))).2).foldl pushNew []

/-- Embeds `resolve_expressions` of `ode.py`: rebuild each component with
every assignment's expression resolved against the symbol table. -/
def resolve_expressions (components : List Component)
    (symbols : List (String × String)) : List Component :=
  components.map fun c =>
    { c with assignments := c.assignments.map (Assignment.resolve_expression symbols) }

/-- The assembled ODE value: components, the time symbol, the model name, the
name-to-symbol table and the name-to-atom lookup (spec section 3). -/
structure ODE where
  components : List Component
  t : String
  name : String
  symbols : List (String × String)
  lookup : List (String × Atom)
deriving DecidableEq, Repr, Inhabited

/-- Embeds `ODE.__init__` of `ode.py`: completeness check, atom gathering,
duplicate check (Python's `len(x) == len(set(x))` comparison), then binding
of the reserved name `time` to the time symbol. -/
def ODE.construct (components : List Component) (t : String := "t")
    (name : String := "ODE") : Except OdeError ODE :=
  match check_components components with
  | .error e => .error e
  | .ok _ =>
      let (symbol_names, symbols, lookup) := gather_atoms components
      if symbol_names.length = symbol_names.dedup.length then
        .ok { components := components, t := t, name := name,
              symbols := dictInsert symbols "time" t, lookup := lookup }
      else .error (.duplicateSymbol (find_duplicates symbol_names))

/-- Embeds `make_ode` of `ode.py`: completeness check (performed twice, as in
the source), atom gathering, binding of `time`, duplicate check, expression
resolution, then the `ODE` constructor. -/
def make_ode (components : List Component) (name : String := "ODE") :
    Except OdeError ODE :=
  match check_components components with
  | .error e => .error e
  | .ok _ =>
      match check_components components with
      | .error e => .error e
      | .ok _ =>
          let t := "t"
          let (symbol_names, symbols, _lookup) := gather_atoms components
          let symbols := dictInsert symbols "time" t
          if symbol_names.length = symbol_names.dedup.length then
            ODE.construct (resolve_expressions components symbols) t name
          else .error (.duplicateSymbol (find_duplicates symbol_names))

/-- Structural set-of-a-list: drop exact repeats (Python set construction;
content is what downstream sorting observes). -/
def setOf {α : Type} [DecidableEq α] : List α → List α
  | [] => []
  | x :: xs => if x ∈ xs then setOf xs else x :: setOf xs

/-- Lexicographic comparison of character lists by code point (the order
Python string comparison uses). -/
def charListLe : List Char → List Char → Bool
  | [], _ => true
  | _ :: _, [] => false
  | a :: as, b :: bs =>
      if a.toNat < b.toNat then true
      else if b.toNat < a.toNat then false
      else charListLe as bs

/-- Lexicographic string comparison by code point. -/
def strLe (a b : String) : Bool := charListLe a.data b.data

/-- Insert into a list sorted by the given name key (stable: an element is
placed after existing elements with a strictly smaller key and before
elements with a larger-or-equal key only when its key is smaller-or-equal,
matching Python's stable `sorted`). -/
def insertOn {α : Type} (f : α → String) (x : α) : List α → List α
  | [] => [x]
  | y :: ys => if strLe (f x) (f y) then x :: y :: ys else y :: insertOn f x ys

/-- Sort by a string key (Python `sorted(..., key=lambda x: x.name)`). -/
def sortOn {α : Type} (f : α → String) : List α → List α
  | [] => []
  | x :: xs => insertOn f x (sortOn f xs)

/-- Embeds `ODE.states`: union of the components' state sets, sorted by
name. -/
def ODE.states (o : ODE) : List State :=
  sortOn State.name (setOf (o.components.flatMap Component.states))

/-- Embeds `ODE.parameters`: union of the components' parameter sets, sorted
by name. -/
def ODE.parameters (o : ODE) : List Parameter :=
  sortOn Parameter.name (setOf (o.components.flatMap Component.parameters))

/-- Embeds `ODE.state_derivatives`: union of the components' state
derivatives, sorted by name. -/
def ODE.state_derivatives (o : ODE) : List StateDerivative :=
  sortOn StateDerivative.name
    (setOf (o.components.flatMap Component.state_derivatives))

/-- Embeds `ODE.intermediates`: union of the components' intermediates,
sorted by name. -/
def ODE.intermediates (o : ODE) : List Intermediate :=
  sortOn Intermediate.name (setOf (o.components.flatMap Component.intermediates))

/-- The assignment tuple `self.intermediates + self.state_derivatives` that
`ODE.sorted_assignments` hands to `sort_assignments`. -/
def ODE.assignmentList (o : ODE) : List Assignment :=
  o.intermediates.map Assignment.interm ++ o.state_derivatives.map Assignment.deriv

/-- Modelled from the spec: one node record of the stdlib
`graphlib.TopologicalSorter` (an external collaborator, modelled at its
interface): the node name, its current predecessor count, and the list of
its successors in append order. -/
structure GNode where
  name : String
  npreds : Nat
  succs : List String
deriving DecidableEq, Repr, Inhabited

/-- The node-table keys in first-mention (insertion) order. -/
def gnames (g : List GNode) : List String :=
  g.map GNode.name

/-- Current predecessor count of a node (0 for an absent name). -/
def npredsOf (g : List GNode) (n : String) : Nat :=
  ((g.find? (fun x => x.name = n)).map GNode.npreds).getD 0

/-- Successor list of a node (empty for an absent name). -/
def succsOf (g : List GNode) (n : String) : List String :=
  ((g.find? (fun x => x.name = n)).map GNode.succs).getD []

/-- Ensure a node entry exists (a fresh entry starts with zero predecessors
and no successors, appended at the end of the table). -/
def touch (g : List GNode) (n : String) : List GNode :=
  if g.any (fun x => x.name = n) then g else g ++ [⟨n, 0, []⟩]

/-- Raise the predecessor count of a node by `k`. -/
def bumpPreds (g : List GNode) (n : String) (k : Nat) : List GNode :=
  g.map fun x => if x.name = n then { x with npreds := x.npreds + k } else x

/-- Append one successor occurrence to a node's successor list. -/
def pushSucc (g : List GNode) (p n : String) : List GNode :=
  g.map fun x => if x.name = p then { x with succs := x.succs ++ [n] } else x

/-- `TopologicalSorter.add(node, *predecessors)`: register the node, charge
it one predecessor per given name (duplicates counted), and record it as a
successor of each predecessor (creating missing entries on first mention). -/
def addNode (g : List GNode) (n : String) (preds : List String) : List GNode :=
  preds.foldl (fun g p => pushSucc (touch g p) p n) (bumpPreds (touch g n) n preds.length)

/-- The sorter after `add(assignment.name, *assignment.value.dependencies)`
for each assignment, in list order (`sort_assignments` of `ode.py`). -/
def buildGraph (asgs : List Assignment) : List GNode :=
  asgs.foldl (fun g a => addNode g a.name a.deps) []

/-- One decrement step of `TopologicalSorter.done`: lower the successor's
predecessor count by one and report whether it just became ready (its count
was exactly one, so the CPython count reaches zero now). -/
def doneOne (g : List GNode) (s : String) : List GNode × Bool :=
  (g.map (fun x => if x.name = s then { x with npreds := x.npreds - 1 } else x),
    npredsOf g s = 1)

/-- Process a flat list of successor occurrences in order, collecting the
nodes that become ready in the order their counts reach zero. -/
def runOccs (g : List GNode) : List String → List GNode × List String
  | [] => (g, [])
  | s :: rest =>
      ((runOccs (doneOne g s).1 rest).1,
        (if (doneOne g s).2 then [s] else []) ++ (runOccs (doneOne g s).1 rest).2)

/-- `done(*batch)` over a whole ready batch: every batch node's successor
occurrences are processed in batch order (successor lists never change during
the run, so reading them up front matches CPython). -/
def doneList (g : List GNode) (batch : List String) : List GNode × List String :=
  runOccs g (batch.flatMap (succsOf g))

/-- The Kahn processing loop of `TopologicalSorter.static_order`: emit the
current ready batch, process its successors, repeat; when the ready list is
empty, succeed iff everything was emitted, else report the unprocessed names
(CPython raises `CycleError` for such graphs before yielding). -/
def sortLoop : Nat → List GNode → List String → List String →
    Except (List String) (List String)
  | _, g, acc, [] =>
      if acc.length = g.length then .ok acc
      else .error ((gnames g).filter (fun n => ¬ n ∈ acc))
  | 0, g, acc, _ :: _ =>
      .error ((gnames g).filter (fun n => ¬ n ∈ acc))
  | fuel + 1, g, acc, r :: rs =>
      sortLoop fuel (doneList g (r :: rs)).1 (acc ++ r :: rs)
        (doneList g (r :: rs)).2

/-- `TopologicalSorter.static_order()`: start from the zero-predecessor nodes
in table order and run the loop. -/
def static_order (g : List GNode) : Except (List String) (List String) :=
  sortLoop (g.length + 1) g [] ((g.filter (fun x => x.npreds = 0)).map GNode.name)

/-- Embeds `sort_assignments` of `ode.py`: build the sorter from the
assignments, take the static order, and (in `assignments_only` mode) keep
only the names that are assignment names, preserving order.  An error is the
`CycleError` escaping from `static_order`. -/
def sort_assignments (assignments : List Assignment)
    (assignments_only : Bool := true) : Except (List String) (List String) :=
  match static_order (buildGraph assignments) with
  | .error e => .error e
  | .ok order =>
      .ok (if assignments_only then
            order.filter (fun n => n ∈ assignments.map Assignment.name)
          else order)

/-- Embeds `ODE.sorted_assignments` (name level): `sort_assignments` over
`self.intermediates + self.state_derivatives`. -/
def ODE.sorted_assignment_names (o : ODE) (assignments_only : Bool := true) :
    Except (List String) (List String) :=
  sort_assignments o.assignmentList assignments_only

/-- Embeds `ODE.sorted_assignments` (atom level): each sorted name is mapped
through the ODE's lookup table and cast to an Assignment. -/
def ODE.sorted_assignments (o : ODE) (assignments_only : Bool := true) :
    Except (List String) (List Assignment) :=
  (o.sorted_assignment_names assignments_only).map fun names =>
    names.filterMap fun n => (o.lookup.lookup n).bind Atom.toAssignment

/-- The six canonical argument orders of `RHSArgument` in
`codegen/base.py`. -/
inductive RHSArgumentOrder where
  | stp
  | spt
  | tsp
  | tps
  | pst
  | pts
deriving DecidableEq, Repr, Inhabited

/-- `RHSArgument.get_value`: the string value of each order token. -/
def RHSArgumentOrder.get_value : RHSArgumentOrder → String
  | .stp => "stp"
  | .spt => "spt"
  | .tsp => "tsp"
  | .tps => "tps"
  | .pst => "pst"
  | .pts => "pts"

/-- The `RHS` named tuple of `codegen/base.py`: the argument token list and
the names of the indexed bases used by the prologue, with the return-value
metadata. -/
structure RHSSig where
  arguments : List String
  statesName : String
  parametersName : String
  valuesName : String
  return_name : String
  num_return_values : Nat
deriving DecidableEq, Repr, Inhabited

/-- Left-hand side of one emitted assignment line in the generated `rhs`
body: either a plain symbol or an element of the output vector `values`. -/
inductive Lhs where
  | sym (s : String)
  | valuesIdx (i : Nat)
deriving DecidableEq, Repr, Inhabited

/-- The assignment lines of the `rhs` body (`CodeGenerator.rhs` of
`codegen/base.py`): walk the sorted assignments; an Intermediate is assigned
to its own symbol, a StateDerivative is assigned to `values[index]` where
`index` is a running counter over the state derivatives encountered so far. -/
def rhsValuesLines : List Assignment → Nat → List (Lhs × SymExpr)
  | [], _ => []
  | .interm i :: rest, k => (.sym i.symbol, i.expr) :: rhsValuesLines rest k
  | .deriv d :: rest, k => (.valuesIdx k, d.expr) :: rhsValuesLines rest (k + 1)

/-- The dependency-ordered assignment list of the generated `rhs` function,
with output-vector indices as emitted by `CodeGenerator.rhs`. -/
def ODE.rhsValues (o : ODE) : Except (List String) (List (Lhs × SymExpr)) :=
  (o.sorted_assignments).map (fun asgs => rhsValuesLines asgs 0)

/-- The structured content of the generated `rhs` function: argument list,
states/parameters unpacking prologue, and the assignment lines. -/
structure RhsCode where
  args : List String
  statesPrologue : List (String × (String × Nat))
  parametersPrologue : List (String × (String × Nat))
  values : Except (List String) (List (Lhs × SymExpr))
deriving Repr

/-- Embeds `CodeGenerator.rhs` of `codegen/base.py`, with the abstract
per-target `_rhs_arguments` supplied as a function of the order: the
prologue assigns each sorted state (parameter) symbol the corresponding
element of the states (parameters) base, and the body is the
dependency-ordered assignment list. -/
def generateRhs (rhs_arguments : RHSArgumentOrder → RHSSig) (o : ODE)
    (order : RHSArgumentOrder) : RhsCode :=
  let sig := rhs_arguments order
  { args := sig.arguments
  , statesPrologue :=
      o.states.enum.map fun p => (p.2.symbol, (sig.statesName, p.1))
  , parametersPrologue :=
      o.parameters.enum.map fun p => (p.2.symbol, (sig.parametersName, p.1))
  , values := o.rhsValues }

/-- Embeds `CodeGenerator.state_index`: the name-to-position data of the
sorted states. -/
def ODE.state_index_data (o : ODE) : List (String × Nat) :=
  o.states.enum.map fun p => (p.2.name, p.1)

/-- The structured content of `CodeGenerator.initial_state_values`: the
assigned vector entries (one per sorted state derivative, holding its owning
state's initial value) and the state names and values listed alongside (from
the sorted states). -/
structure InitialStateValues where
  vector : List Int
  state_names : List String
  state_values : List Int
deriving DecidableEq, Repr

/-- Embeds `CodeGenerator.initial_state_values` of `codegen/base.py`. -/
def ODE.initial_state_values (o : ODE) : InitialStateValues :=
  { vector := o.state_derivatives.map (fun d => d.state.value)
  , state_names := o.states.map State.name
  , state_values := o.states.map State.value }

/-! ### Order-of-occurrence predicate -/

/-- `Before x y l`: `y` occurs strictly after the first occurrence of `x` in
`l` (in particular both occur in `l`). -/
def Before (x y : String) (l : List String) : Prop :=
  y ∈ (l.dropWhile (fun z => decide (z ≠ x))).tail

instance (x y : String) (l : List String) : Decidable (Before x y l) := by
  unfold Before
  infer_instance

theorem before_of_append {x y : String} {l₁ l₂ : List String}
    (hx : x ∉ l₁) (hy : y ∈ l₂) : Before x y (l₁ ++ x :: l₂) := by
  induction l₁ with
  | nil =>
      simp [Before, List.dropWhile_cons]
      exact hy
  | cons a as ih =>
      have hax : a ≠ x := fun h => hx (h ▸ List.mem_cons_self a as)
      have hx' : x ∉ as := fun h => hx (List.mem_cons_of_mem a h)
      simpa [Before, List.dropWhile_cons, hax] using ih hx'

theorem before_elim {x y : String} {l : List String} (h : Before x y l) :
    ∃ l₁ l₂, l = l₁ ++ x :: l₂ ∧ x ∉ l₁ ∧ y ∈ l₂ := by
  induction l with
  | nil => simp [Before] at h
  | cons a as ih =>
      by_cases hax : a = x
      · subst hax
        refine ⟨[], as, rfl, by simp, ?_⟩
        simpa [Before, List.dropWhile_cons] using h
      · have h' : Before x y as := by
          simpa [Before, List.dropWhile_cons, hax] using h
        obtain ⟨l₁, l₂, rfl, hx, hy⟩ := ih h'
        refine ⟨a :: l₁, l₂, rfl, ?_, hy⟩
        intro hc
        rcases List.mem_cons.mp hc with hh | hh
        · exact hax hh.symm
        · exact hx hh

theorem before_append_right {x y : String} {l l' : List String}
    (h : Before x y l) : Before x y (l ++ l') := by
  obtain ⟨l₁, l₂, rfl, hx, hy⟩ := before_elim h
  have := @before_of_append x y l₁ (l₂ ++ l') hx (List.mem_append_left _ hy)
  simpa using this

theorem before_filter {x y : String} {l : List String} (p : String → Bool)
    (h : Before x y l) (hpx : p x = true) (hpy : p y = true) :
    Before x y (l.filter p) := by
  obtain ⟨l₁, l₂, rfl, hx, hy⟩ := before_elim h
  rw [List.filter_append, List.filter_cons, if_pos hpx]
  exact before_of_append (fun hc => hx (List.mem_of_mem_filter hc))
    (List.mem_filter.mpr ⟨hy, hpy⟩)

theorem before_mem_left {x y : String} {l : List String} (h : Before x y l) :
    x ∈ l := by
  obtain ⟨l₁, l₂, rfl, _, _⟩ := before_elim h
  simp

theorem before_mem_right {x y : String} {l : List String} (h : Before x y l) :
    y ∈ l := by
  obtain ⟨l₁, l₂, rfl, _, hy⟩ := before_elim h
  simp [hy]

/-- First-occurrence decomposition of a list at a member. -/
theorem first_split {x : String} {l : List String} (h : x ∈ l) :
    ∃ l₁ l₂, l = l₁ ++ x :: l₂ ∧ x ∉ l₁ := by
  induction l with
  | nil => cases h
  | cons a as ih =>
      by_cases hax : a = x
      · exact ⟨[], as, by simp [hax], by simp⟩
      · have h' : x ∈ as := by
          rcases List.mem_cons.mp h with h | h
          · exact absurd h.symm hax
          · exact h
        obtain ⟨l₁, l₂, rfl, hx⟩ := ih h'
        refine ⟨a :: l₁, l₂, rfl, ?_⟩
        intro hc
        rcases List.mem_cons.mp hc with hh | hh
        · exact hax hh.symm
        · exact hx hh

/-- Index of the first occurrence (length of the list if absent). -/
def posOf (x : String) : List String → Nat
  | [] => 0
  | y :: ys => if y = x then 0 else posOf x ys + 1

theorem posOf_append_not_mem {x : String} {l₁ l₂ : List String}
    (h : x ∉ l₁) : posOf x (l₁ ++ l₂) = l₁.length + posOf x l₂ := by
  induction l₁ with
  | nil => simp
  | cons a as ih =>
      have hax : a ≠ x := fun hh => h (hh ▸ List.mem_cons_self a as)
      have h' : x ∉ as := fun hh => h (List.mem_cons_of_mem a hh)
      simp [posOf, hax, ih h']
      omega

theorem before_posOf_lt {x y : String} {l : List String} (hnd : l.Nodup)
    (h : Before x y l) : posOf x l < posOf y l := by
  obtain ⟨l₁, l₂, rfl, hx, hy⟩ := before_elim h
  have hnd' := List.nodup_append.mp hnd
  have hyx : y ≠ x := by
    intro hh
    subst hh
    exact (List.nodup_cons.mp hnd'.2.1).1 hy
  have hyl₁ : y ∉ l₁ := fun hc => hnd'.2.2 hc (List.mem_cons_of_mem x hy)
  have h1 : posOf x (l₁ ++ x :: l₂) = l₁.length := by
    rw [posOf_append_not_mem hx]
    simp [posOf]
  have h2 : posOf y (l₁ ++ x :: l₂) = l₁.length + (posOf y l₂ + 1) := by
    rw [posOf_append_not_mem hyl₁]
    simp [posOf, hyx.symm]
  omega

/-- Everything in a finite over-long duplicate-free list over a
duplicate-free universe is hit: the pigeonhole direction used at a clean
loop exit. -/
theorem mem_of_nodup_subset_length {acc names : List String}
    (h1 : acc.Nodup) (h2 : ∀ a ∈ acc, a ∈ names) (h3 : names.Nodup)
    (h4 : names.length ≤ acc.length) : ∀ n ∈ names, n ∈ acc := by
  have hsub : acc.toFinset ⊆ names.toFinset := by
    intro a ha
    exact List.mem_toFinset.mpr (h2 a (List.mem_toFinset.mp ha))
  have hcards : names.toFinset.card ≤ acc.toFinset.card := by
    rw [List.toFinset_card_of_nodup h1, List.toFinset_card_of_nodup h3]
    exact h4
  have := Finset.eq_of_subset_of_card_le hsub hcards
  intro n hn
  exact List.mem_toFinset.mp (this ▸ List.mem_toFinset.mpr hn)

/-- A duplicate-free list of members of `names` is no longer than
`names`. -/
theorem length_le_of_nodup_subset {acc names : List String}
    (h1 : acc.Nodup) (h2 : ∀ a ∈ acc, a ∈ names) :
    acc.length ≤ names.length := by
  have hsub : acc.toFinset ⊆ names.toFinset := by
    intro a ha
    exact List.mem_toFinset.mpr (h2 a (List.mem_toFinset.mp ha))
  calc acc.length = acc.toFinset.card := (List.toFinset_card_of_nodup h1).symm
    _ ≤ names.toFinset.card := Finset.card_le_card hsub
    _ ≤ names.length := names.toFinset_card_le

/-! ### Sorter-table accounting and construction -/

/-- Total number of occurrences of `m` across all successor lists: the
number of edges into `m`. -/
def countSucc (g : List GNode) (m : String) : Nat :=
  (g.map (fun y => y.succs.count m)).sum

/-- Number of edges into `m` from nodes whose name is not in `acc`. -/
def inCountExcept (g : List GNode) (acc : List String) (m : String) : Nat :=
  ((g.filter (fun y => decide (¬ y.name ∈ acc))).map (fun y => y.succs.count m)).sum

/-- `EdgeB g p n`: the sorter records an edge from `p` to `n` (`n` must wait
for `p`). -/
def EdgeB (g : List GNode) (p n : String) : Prop :=
  n ∈ succsOf g p

/-- Well-formedness of a node table: distinct names, successor entries are
node names. -/
def TableWF (g : List GNode) : Prop :=
  (gnames g).Nodup ∧ ∀ r q, q ∈ succsOf g r → q ∈ gnames g

theorem mem_gnames {g : List GNode} {n : String} :
    n ∈ gnames g ↔ ∃ x ∈ g, x.name = n := by
  simp [gnames, List.mem_map]

theorem any_name_eq {g : List GNode} {n : String} :
    (g.any fun x => decide (x.name = n)) = true ↔ n ∈ gnames g := by
  rw [List.any_eq_true, mem_gnames]
  simp

theorem npredsOf_eq_of_mem {g : List GNode} {x : GNode} (hnd : (gnames g).Nodup)
    (hx : x ∈ g) : npredsOf g x.name = x.npreds := by
  induction g with
  | nil => cases hx
  | cons y g' ih =>
      rcases List.mem_cons.mp hx with rfl | hx'
      · simp [npredsOf, List.find?_cons_of_pos]
      · have hnd' : (∀ z ∈ g', ¬ z.name = y.name) ∧ (List.map GNode.name g').Nodup := by
          simpa [gnames, List.nodup_cons] using hnd
        have hyx : y.name ≠ x.name := fun hh => hnd'.1 x hx' hh.symm
        have := ih (by simpa [gnames] using hnd'.2) hx'
        simpa [npredsOf, List.find?_cons_of_neg, hyx] using this

theorem succsOf_eq_of_mem {g : List GNode} {x : GNode} (hnd : (gnames g).Nodup)
    (hx : x ∈ g) : succsOf g x.name = x.succs := by
  induction g with
  | nil => cases hx
  | cons y g' ih =>
      rcases List.mem_cons.mp hx with rfl | hx'
      · simp [succsOf, List.find?_cons_of_pos]
      · have hnd' : (∀ z ∈ g', ¬ z.name = y.name) ∧ (List.map GNode.name g').Nodup := by
          simpa [gnames, List.nodup_cons] using hnd
        have hyx : y.name ≠ x.name := fun hh => hnd'.1 x hx' hh.symm
        have := ih (by simpa [gnames] using hnd'.2) hx'
        simpa [succsOf, List.find?_cons_of_neg, hyx] using this

theorem succsOf_absent {g : List GNode} {n : String} (h : ¬ n ∈ gnames g) :
    succsOf g n = [] := by
  induction g with
  | nil => rfl
  | cons y g' ih =>
      have h1 : y.name ≠ n := fun hh => h (by simp [gnames, hh])
      have h2 : ¬ n ∈ gnames g' := fun hh => h (by simp [gnames] at hh ⊢; tauto)
      simpa [succsOf, List.find?_cons_of_neg, h1] using ih h2

theorem edge_source_mem {g : List GNode} {p n : String} (h : EdgeB g p n) :
    p ∈ gnames g := by
  by_contra hc
  rw [EdgeB, succsOf_absent hc] at h
  cases h

/-! #### `touch` -/

theorem touch_of_mem {g : List GNode} {n : String} (h : n ∈ gnames g) :
    touch g n = g := by
  simp [touch, any_name_eq.mpr h]

theorem touch_of_not_mem {g : List GNode} {n : String} (h : ¬ n ∈ gnames g) :
    touch g n = g ++ [⟨n, 0, []⟩] := by
  have : ¬ (g.any fun x => decide (x.name = n)) = true := fun hc => h (any_name_eq.mp hc)
  simp [touch, this]

theorem gnames_append (g₁ g₂ : List GNode) :
    gnames (g₁ ++ g₂) = gnames g₁ ++ gnames g₂ := by
  simp [gnames]

theorem touch_gnames {g : List GNode} {n : String} :
    ∃ ext, gnames (touch g n) = gnames g ++ ext := by
  by_cases h : n ∈ gnames g
  · exact ⟨[], by simp [touch_of_mem h]⟩
  · exact ⟨[n], by simp [touch_of_not_mem h, gnames_append, gnames]⟩

theorem mem_touch {g : List GNode} {n : String} : n ∈ gnames (touch g n) := by
  by_cases h : n ∈ gnames g
  · simpa [touch_of_mem h] using h
  · simp [touch_of_not_mem h, gnames_append, gnames]

theorem touch_nodup {g : List GNode} {n : String} (h : (gnames g).Nodup) :
    (gnames (touch g n)).Nodup := by
  by_cases hm : n ∈ gnames g
  · simpa [touch_of_mem hm] using h
  · rw [touch_of_not_mem hm, gnames_append]
    simp [gnames, List.nodup_append, List.Disjoint]
    refine ⟨by simpa [gnames] using h, ?_⟩
    intro a ha hc
    exact hm (mem_gnames.mpr ⟨a, ha, hc⟩)

theorem find?_append_left {p : GNode → Bool} {g₁ g₂ : List GNode}
    (h : List.find? p g₁ = none) :
    List.find? p (g₁ ++ g₂) = List.find? p g₂ := by
  rw [List.find?_append, h]
  rfl

theorem find?_name_none {g : List GNode} {n : String} (h : ¬ n ∈ gnames g) :
    List.find? (fun x => decide (x.name = n)) g = none := by
  rw [List.find?_eq_none]
  intro x hx
  simp
  intro hc
  exact h (mem_gnames.mpr ⟨x, hx, hc⟩)

theorem touch_npredsOf {g : List GNode} {n m : String} :
    npredsOf (touch g n) m = npredsOf g m := by
  by_cases h : n ∈ gnames g
  · rw [touch_of_mem h]
  · rw [touch_of_not_mem h]
    by_cases hm : m ∈ gnames g
    · obtain ⟨x, hx, rfl⟩ := mem_gnames.mp hm
      unfold npredsOf
      obtain ⟨y, hy⟩ : ∃ y, List.find? (fun z => decide (z.name = x.name)) g = some y := by
        rcases hfind : List.find? (fun z => decide (z.name = x.name)) g with _ | y
        · rw [List.find?_eq_none] at hfind
          have := hfind x hx
          simp at this
        · exact ⟨y, hfind⟩
      rw [List.find?_append, hy]
      simp [hy]
    · unfold npredsOf
      rw [find?_append_left (find?_name_none hm), find?_name_none hm]
      by_cases hnm : n = m
      · subst hnm
        simp [List.find?_cons_of_pos]
      · simp [List.find?_cons_of_neg, hnm]

/-! #### `bumpPreds` and `pushSucc` -/

theorem touch_succsOf {g : List GNode} {n m : String} :
    succsOf (touch g n) m = succsOf g m := by
  by_cases h : n ∈ gnames g
  · rw [touch_of_mem h]
  · rw [touch_of_not_mem h]
    by_cases hm : m ∈ gnames g
    · obtain ⟨x, hx, rfl⟩ := mem_gnames.mp hm
      unfold succsOf
      obtain ⟨y, hy⟩ : ∃ y, List.find? (fun z => decide (z.name = x.name)) g = some y := by
        rcases hfind : List.find? (fun z => decide (z.name = x.name)) g with _ | y
        · rw [List.find?_eq_none] at hfind
          have := hfind x hx
          simp at this
        · exact ⟨y, hfind⟩
      rw [List.find?_append, hy]
      simp [hy]
    · unfold succsOf
      rw [find?_append_left (find?_name_none hm), find?_name_none hm]
      by_cases hnm : n = m
      · subst hnm
        simp [List.find?_cons_of_pos]
      · simp [List.find?_cons_of_neg, hnm]

theorem touch_countSucc {g : List GNode} {n m : String} :
    countSucc (touch g n) m = countSucc g m := by
  by_cases h : n ∈ gnames g
  · rw [touch_of_mem h]
  · rw [touch_of_not_mem h]
    simp [countSucc]

theorem find?_name_mem {g : List GNode} {m : String} (h : m ∈ gnames g) :
    ∃ x, List.find? (fun z => decide (z.name = m)) g = some x ∧ x ∈ g ∧ x.name = m := by
  rcases hfind : List.find? (fun z => decide (z.name = m)) g with _ | x
  · rw [List.find?_eq_none] at hfind
    obtain ⟨x, hx, hxn⟩ := mem_gnames.mp h
    have := hfind x hx
    simp [hxn] at this
  · exact ⟨x, hfind, List.mem_of_find?_eq_some hfind,
      by simpa using List.find?_some hfind⟩

/-- `find?` by name commutes with a name-preserving conditional update of
the node table. -/
theorem find?_map_updIf {g : List GNode} {n m : String} {f : GNode → GNode}
    (hf : ∀ x, (f x).name = x.name) :
    List.find? (fun z => decide (z.name = m))
        (g.map fun x => if x.name = n then f x else x) =
      (List.find? (fun z => decide (z.name = m)) g).map
        (fun x => if x.name = n then f x else x) := by
  induction g with
  | nil => rfl
  | cons y g' ih =>
      have hy'name : (if y.name = n then f y else y).name = y.name := by
        by_cases h : y.name = n <;> simp [h, hf]
      by_cases hm : y.name = m
      · rw [List.map_cons,
          List.find?_cons_of_pos _
            (by simp only [decide_eq_true_eq, hy'name]; exact hm),
          List.find?_cons_of_pos _ (by simp [hm])]
        rfl
      · rw [List.map_cons, List.find?_cons_of_neg _ (by simp [hy'name, hm]),
          List.find?_cons_of_neg _ (by simp [hm]), ih]

theorem gnames_map_updIf {g : List GNode} {n : String} {f : GNode → GNode}
    (hf : ∀ x, (f x).name = x.name) :
    gnames (g.map fun x => if x.name = n then f x else x) = gnames g := by
  unfold gnames
  rw [List.map_map]
  apply List.map_congr_left
  intro x _
  by_cases h : x.name = n <;> simp [h, hf]

theorem bump_gnames {g : List GNode} {n : String} {k : Nat} :
    gnames (bumpPreds g n k) = gnames g :=
  gnames_map_updIf (f := fun x => { x with npreds := x.npreds + k }) (fun _ => rfl)

theorem bump_npredsOf {g : List GNode} {n m : String} {k : Nat} :
    npredsOf (bumpPreds g n k) m =
      npredsOf g m + (if m = n ∧ m ∈ gnames g then k else 0) := by
  unfold npredsOf bumpPreds
  rw [find?_map_updIf (f := fun x => { x with npreds := x.npreds + k }) (fun _ => rfl)]
  by_cases hm : m ∈ gnames g
  · obtain ⟨x, hx, _, hxn⟩ := find?_name_mem hm
    rw [hx]
    by_cases hmn : m = n
    · subst hmn
      simp [hxn, hm]
    · simp [hxn, hmn]
  · rw [find?_name_none hm]
    simp [hm]

theorem bump_succsOf {g : List GNode} {n m : String} {k : Nat} :
    succsOf (bumpPreds g n k) m = succsOf g m := by
  unfold succsOf bumpPreds
  rw [find?_map_updIf (f := fun x => { x with npreds := x.npreds + k }) (fun _ => rfl)]
  rcases hfind : List.find? (fun z => decide (z.name = m)) g with _ | x
  · rw [hfind]
    rfl
  · rw [hfind]
    by_cases h : x.name = n <;> simp [h]

theorem bump_countSucc {g : List GNode} {n m : String} {k : Nat} :
    countSucc (bumpPreds g n k) m = countSucc g m := by
  unfold countSucc bumpPreds
  rw [List.map_map]
  congr 1
  apply List.map_congr_left
  intro x _
  by_cases h : x.name = n <;> simp [h]

theorem push_gnames {g : List GNode} {p n : String} :
    gnames (pushSucc g p n) = gnames g :=
  gnames_map_updIf (f := fun x => { x with succs := x.succs ++ [n] }) (fun _ => rfl)

theorem push_npredsOf {g : List GNode} {p n m : String} :
    npredsOf (pushSucc g p n) m = npredsOf g m := by
  unfold npredsOf pushSucc
  rw [find?_map_updIf (f := fun x => { x with succs := x.succs ++ [n] }) (fun _ => rfl)]
  rcases hfind : List.find? (fun z => decide (z.name = m)) g with _ | x
  · rw [hfind]
    rfl
  · rw [hfind]
    by_cases h : x.name = p <;> simp [h]

theorem push_succsOf {g : List GNode} {p n m : String} :
    succsOf (pushSucc g p n) m =
      succsOf g m ++ (if m = p ∧ m ∈ gnames g then [n] else []) := by
  unfold succsOf pushSucc
  rw [find?_map_updIf (f := fun x => { x with succs := x.succs ++ [n] }) (fun _ => rfl)]
  by_cases hm : m ∈ gnames g
  · obtain ⟨x, hx, _, hxn⟩ := find?_name_mem hm
    rw [hx]
    by_cases hmp : m = p
    · subst hmp
      simp [hxn, hm]
    · simp [hxn, hmp]
  · rw [find?_name_none hm]
    simp [hm]

theorem not_mem_push_eq {g : List GNode} {p n : String}
    (h : ¬ p ∈ gnames g) : pushSucc g p n = g := by
  induction g with
  | nil => rfl
  | cons y g' ih =>
      have hcons : gnames (y :: g') = y.name :: gnames g' := rfl
      have h1 : ¬ y.name = p := fun hh => h (by rw [hcons, hh]; exact List.mem_cons_self p _)
      have h2 : ¬ p ∈ gnames g' := fun hh => h (by rw [hcons]; exact List.mem_cons_of_mem _ hh)
      simp only [pushSucc, List.map_cons, if_neg h1]
      have := ih h2
      simp only [pushSucc] at this
      rw [this]

theorem push_countSucc {g : List GNode} {p n m : String}
    (hnd : (gnames g).Nodup) :
    countSucc (pushSucc g p n) m =
      countSucc g m + (if p ∈ gnames g ∧ m = n then 1 else 0) := by
  induction g with
  | nil => simp [pushSucc, countSucc, gnames]
  | cons y g' ih =>
      have hcons : gnames (y :: g') = y.name :: gnames g' := rfl
      have hnd2 : y.name ∉ gnames g' ∧ (gnames g').Nodup := by
        rw [hcons] at hnd
        exact List.nodup_cons.mp hnd
      by_cases hy : y.name = p
      · have hpg' : ¬ p ∈ gnames g' := hy ▸ hnd2.1
        simp only [pushSucc, List.map_cons, if_pos hy]
        have hrest : List.map (fun x => if x.name = p then { x with succs := x.succs ++ [n] } else x) g' = g' := by
          have := not_mem_push_eq (g := g') (p := p) (n := n) hpg'
          simpa [pushSucc] using this
        rw [hrest]
        have hmem : p ∈ gnames (y :: g') := by rw [hcons, hy]; exact List.mem_cons_self p _
        simp only [countSucc, List.map_cons, List.sum_cons, List.count_append]
        by_cases hmn : m = n
        · subst hmn
          rw [if_pos ⟨hmem, rfl⟩]
          simp [List.count_cons]
          omega
        · rw [if_neg (fun hh => hmn hh.2)]
          have h0 : List.count m [n] = 0 := by
            simp [List.count_cons]
            exact fun hh => hmn hh.symm
          rw [h0]
          omega
      · simp only [pushSucc, List.map_cons, if_neg hy]
        have hiff : p ∈ gnames (y :: g') ↔ p ∈ gnames g' := by
          rw [hcons]
          simp [List.mem_cons]
          intro hh
          exact absurd hh.symm hy
        have ih' := ih hnd2.2
        simp only [pushSucc] at ih'
        simp only [countSucc, List.map_cons, List.sum_cons] at ih' ⊢
        rw [ih']
        by_cases hc : p ∈ gnames g' ∧ m = n
        · rw [if_pos hc, if_pos ⟨hiff.mpr hc.1, hc.2⟩]
          omega
        · rw [if_neg hc, if_neg (fun hh => hc ⟨hiff.mp hh.1, hh.2⟩)]
          omega



/-! #### The predecessor fold inside `addNode` -/

theorem addFold_npredsOf {preds : List String} {g : List GNode} {n m : String} :
    npredsOf (preds.foldl (fun g p => pushSucc (touch g p) p n) g) m =
      npredsOf g m := by
  induction preds generalizing g with
  | nil => rfl
  | cons p rest ih =>
      rw [List.foldl_cons, ih, push_npredsOf, touch_npredsOf]

theorem addFold_gnames_ext {preds : List String} {g : List GNode} {n : String} :
    ∃ ext, gnames (preds.foldl (fun g p => pushSucc (touch g p) p n) g) =
      gnames g ++ ext := by
  induction preds generalizing g with
  | nil => exact ⟨[], by simp⟩
  | cons p rest ih =>
      rw [List.foldl_cons]
      obtain ⟨ext1, h1⟩ := ih (g := pushSucc (touch g p) p n)
      obtain ⟨ext2, h2⟩ := touch_gnames (g := g) (n := p)
      exact ⟨ext2 ++ ext1, by rw [h1, push_gnames, h2, List.append_assoc]⟩

theorem addFold_mem_gnames {preds : List String} {g : List GNode} {n m : String}
    (h : m ∈ gnames g) :
    m ∈ gnames (preds.foldl (fun g p => pushSucc (touch g p) p n) g) := by
  obtain ⟨ext, heq⟩ := @addFold_gnames_ext preds g n
  rw [heq]
  exact List.mem_append_left _ h

theorem addFold_mem_pred {preds : List String} {g : List GNode} {n : String} :
    ∀ p ∈ preds, p ∈ gnames (preds.foldl (fun g p => pushSucc (touch g p) p n) g) := by
  induction preds generalizing g with
  | nil => intro p hp; cases hp
  | cons q rest ih =>
      intro p hp
      rw [List.foldl_cons]
      rcases List.mem_cons.mp hp with rfl | hp'
      · exact addFold_mem_gnames (by rw [push_gnames]; exact mem_touch)
      · exact ih p hp'

theorem addFold_nodup {preds : List String} {g : List GNode} {n : String}
    (h : (gnames g).Nodup) :
    (gnames (preds.foldl (fun g p => pushSucc (touch g p) p n) g)).Nodup := by
  induction preds generalizing g with
  | nil => exact h
  | cons p rest ih =>
      rw [List.foldl_cons]
      exact ih (by rw [push_gnames]; exact touch_nodup h)

theorem addFold_succsOf {preds : List String} {g : List GNode} {n q r : String} :
    (q ∈ succsOf (preds.foldl (fun g p => pushSucc (touch g p) p n) g) r) ↔
      (q ∈ succsOf g r ∨ (q = n ∧ r ∈ preds)) := by
  induction preds generalizing g with
  | nil => simp
  | cons p rest ih =>
      rw [List.foldl_cons, ih]
      have hstep : succsOf (pushSucc (touch g p) p n) r =
          succsOf g r ++ (if r = p then [n] else []) := by
        rw [push_succsOf]
        by_cases hrp : r = p
        · subst hrp
          simp [mem_touch, touch_succsOf]
        · simp [hrp, touch_succsOf]
      rw [hstep]
      by_cases hrp : r = p
      · subst hrp
        simp [List.mem_append]
        try tauto
      · simp [hrp, List.mem_cons]
        try tauto

theorem addFold_countSucc {preds : List String} {g : List GNode} {n m : String}
    (hnd : (gnames g).Nodup) :
    countSucc (preds.foldl (fun g p => pushSucc (touch g p) p n) g) m =
      countSucc g m + (if m = n then preds.length else 0) := by
  induction preds generalizing g with
  | nil => simp
  | cons p rest ih =>
      rw [List.foldl_cons]
      have hnd1 : (gnames (touch g p)).Nodup := touch_nodup hnd
      have hnd2 : (gnames (pushSucc (touch g p) p n)).Nodup := by
        rw [push_gnames]; exact hnd1
      rw [ih hnd2, push_countSucc hnd1, touch_countSucc]
      have : p ∈ gnames (touch g p) := mem_touch
      by_cases hmn : m = n <;> simp [hmn, this, List.length_cons] <;> omega

/-! #### `addNode` -/

theorem addNode_npredsOf {g : List GNode} {n m : String} {preds : List String} :
    npredsOf (addNode g n preds) m =
      npredsOf g m + (if m = n then preds.length else 0) := by
  unfold addNode
  rw [addFold_npredsOf, bump_npredsOf, touch_npredsOf]
  by_cases hmn : m = n
  · subst hmn
    simp [mem_touch]
  · simp [hmn]

theorem addNode_gnames_ext {g : List GNode} {n : String} {preds : List String} :
    ∃ ext, gnames (addNode g n preds) = gnames g ++ ext := by
  unfold addNode
  obtain ⟨ext1, h1⟩ :=
    @addFold_gnames_ext preds (bumpPreds (touch g n) n preds.length) n
  obtain ⟨ext2, h2⟩ := touch_gnames (g := g) (n := n)
  exact ⟨ext2 ++ ext1, by rw [h1, bump_gnames, h2, List.append_assoc]⟩

theorem addNode_mem_gnames {g : List GNode} {n m : String} {preds : List String}
    (h : m ∈ gnames g) : m ∈ gnames (addNode g n preds) := by
  obtain ⟨ext, heq⟩ := @addNode_gnames_ext g n preds
  rw [heq]
  exact List.mem_append_left _ h

theorem addNode_mem_self {g : List GNode} {n : String} {preds : List String} :
    n ∈ gnames (addNode g n preds) := by
  unfold addNode
  apply addFold_mem_gnames
  rw [bump_gnames]
  exact mem_touch

theorem addNode_mem_pred {g : List GNode} {n : String} {preds : List String} :
    ∀ p ∈ preds, p ∈ gnames (addNode g n preds) := by
  unfold addNode
  exact addFold_mem_pred

theorem addNode_nodup {g : List GNode} {n : String} {preds : List String}
    (h : (gnames g).Nodup) : (gnames (addNode g n preds)).Nodup := by
  unfold addNode
  apply addFold_nodup
  rw [bump_gnames]
  exact touch_nodup h

theorem addNode_succsOf {g : List GNode} {n q r : String} {preds : List String} :
    (q ∈ succsOf (addNode g n preds) r) ↔
      (q ∈ succsOf g r ∨ (q = n ∧ r ∈ preds)) := by
  unfold addNode
  rw [addFold_succsOf, bump_succsOf, touch_succsOf]

theorem addNode_countSucc {g : List GNode} {n m : String} {preds : List String}
    (hnd : (gnames g).Nodup) :
    countSucc (addNode g n preds) m =
      countSucc g m + (if m = n then preds.length else 0) := by
  unfold addNode
  rw [addFold_countSucc (by rw [bump_gnames]; exact touch_nodup hnd),
    bump_countSucc, touch_countSucc]

theorem addNode_TableWF {g : List GNode} {n : String} {preds : List String}
    (h : TableWF g) : TableWF (addNode g n preds) := by
  refine ⟨addNode_nodup h.1, ?_⟩
  intro r q hq
  rcases addNode_succsOf.mp hq with hq' | ⟨rfl, _⟩
  · exact addNode_mem_gnames (h.2 r q hq')
  · exact addNode_mem_self

/-! #### `buildGraph` -/

theorem buildGraph_fold_TableWF {asgs : List Assignment} {g : List GNode}
    (h : TableWF g) :
    TableWF (asgs.foldl (fun g a => addNode g a.name a.deps) g) := by
  induction asgs generalizing g with
  | nil => exact h
  | cons a rest ih => exact ih (addNode_TableWF h)

theorem buildGraph_TableWF (asgs : List Assignment) : TableWF (buildGraph asgs) :=
  buildGraph_fold_TableWF ⟨List.nodup_nil, by intro r q hq; cases hq⟩

theorem buildGraph_fold_npredsOf {asgs : List Assignment} {g : List GNode}
    {m : String} :
    npredsOf (asgs.foldl (fun g a => addNode g a.name a.deps) g) m =
      npredsOf g m +
        ((asgs.filter fun a => decide (a.name = m)).map
          (fun a => a.deps.length)).sum := by
  induction asgs generalizing g with
  | nil => simp
  | cons a rest ih =>
      rw [List.foldl_cons, ih, addNode_npredsOf, List.filter_cons]
      by_cases hm : a.name = m
      · simp [hm, List.map_cons, List.sum_cons]
        omega
      · simp [hm]
        intro hh
        exact absurd hh.symm hm

theorem buildGraph_npredsOf {asgs : List Assignment} {m : String} :
    npredsOf (buildGraph asgs) m =
      ((asgs.filter fun a => decide (a.name = m)).map
        (fun a => a.deps.length)).sum := by
  have := @buildGraph_fold_npredsOf asgs [] m
  simpa [npredsOf, buildGraph] using this

theorem buildGraph_fold_countSucc {asgs : List Assignment} {g : List GNode}
    {m : String} (h : TableWF g) :
    countSucc (asgs.foldl (fun g a => addNode g a.name a.deps) g) m =
      countSucc g m +
        ((asgs.filter fun a => decide (a.name = m)).map
          (fun a => a.deps.length)).sum := by
  induction asgs generalizing g with
  | nil => simp
  | cons a rest ih =>
      rw [List.foldl_cons, ih (addNode_TableWF h), addNode_countSucc h.1,
        List.filter_cons]
      by_cases hm : a.name = m
      · simp [hm, List.map_cons, List.sum_cons]
        omega
      · simp [hm]
        intro hh
        exact absurd hh.symm hm

theorem buildGraph_countSucc {asgs : List Assignment} {m : String} :
    countSucc (buildGraph asgs) m =
      ((asgs.filter fun a => decide (a.name = m)).map
        (fun a => a.deps.length)).sum := by
  have := @buildGraph_fold_countSucc asgs [] m
    ⟨List.nodup_nil, by intro r q hq; cases hq⟩
  simpa [countSucc, buildGraph] using this

/-- Counts are balanced in a built sorter table. -/
theorem buildGraph_balanced {asgs : List Assignment} {m : String} :
    npredsOf (buildGraph asgs) m = countSucc (buildGraph asgs) m := by
  rw [buildGraph_npredsOf, buildGraph_countSucc]

theorem buildGraph_fold_succsOf {asgs : List Assignment} {g : List GNode}
    {q r : String} :
    (q ∈ succsOf (asgs.foldl (fun g a => addNode g a.name a.deps) g) r) ↔
      (q ∈ succsOf g r ∨ ∃ a ∈ asgs, a.name = q ∧ r ∈ a.deps) := by
  induction asgs generalizing g with
  | nil => simp
  | cons a rest ih =>
      rw [List.foldl_cons, ih]
      rw [addNode_succsOf]
      constructor
      · rintro ((hh | ⟨rfl, hh⟩) | ⟨b, hb, hbq, hbr⟩)
        · exact Or.inl hh
        · exact Or.inr ⟨a, List.mem_cons_self a rest, rfl, hh⟩
        · exact Or.inr ⟨b, List.mem_cons_of_mem a hb, hbq, hbr⟩
      · rintro (hh | ⟨b, hb, hbq, hbr⟩)
        · exact Or.inl (Or.inl hh)
        · rcases List.mem_cons.mp hb with rfl | hb'
          · exact Or.inl (Or.inr ⟨hbq.symm, hbr⟩)
          · exact Or.inr ⟨b, hb', hbq, hbr⟩

/-- The edges of the built sorter table are exactly the dependency pairs of
the assignments. -/
theorem buildGraph_EdgeB {asgs : List Assignment} {p n : String} :
    EdgeB (buildGraph asgs) p n ↔ ∃ a ∈ asgs, a.name = n ∧ p ∈ a.deps := by
  unfold EdgeB buildGraph
  rw [buildGraph_fold_succsOf]
  simp [succsOf]

theorem buildGraph_fold_mono {asgs : List Assignment} {g : List GNode}
    {m : String} (h : m ∈ gnames g) :
    m ∈ gnames (asgs.foldl (fun g a => addNode g a.name a.deps) g) := by
  induction asgs generalizing g with
  | nil => exact h
  | cons b rest ih => exact ih (addNode_mem_gnames h)

theorem buildGraph_fold_mem {asgs : List Assignment} {g : List GNode} :
    ∀ a ∈ asgs, Assignment.name a ∈
      gnames (asgs.foldl (fun g a => addNode g a.name a.deps) g) := by
  induction asgs generalizing g with
  | nil => intro a ha; cases ha
  | cons b rest ih =>
      intro a ha
      rw [List.foldl_cons]
      rcases List.mem_cons.mp ha with rfl | ha'
      · exact buildGraph_fold_mono addNode_mem_self
      · exact ih a ha'

theorem buildGraph_mem {asgs : List Assignment} :
    ∀ a ∈ asgs, Assignment.name a ∈ gnames (buildGraph asgs) :=
  buildGraph_fold_mem

/-! #### Edge counting relative to an emitted set -/

theorem inCountExcept_nil_acc {g : List GNode} {m : String} :
    inCountExcept g [] m = countSucc g m := by
  unfold inCountExcept countSucc
  have hfil : (g.filter fun y => decide (¬ y.name ∈ ([] : List String))) = g :=
    List.filter_eq_self.mpr (by intro a _; simp)
  rw [hfil]

theorem inCountExcept_skip {g : List GNode} {acc : List String} {b m : String}
    (h : ¬ b ∈ gnames g) :
    inCountExcept g acc m = inCountExcept g (acc ++ [b]) m := by
  unfold inCountExcept
  congr 2
  apply List.filter_congr
  intro y hy
  have : y.name ≠ b := fun hh => h (hh ▸ mem_gnames.mpr ⟨y, hy, rfl⟩)
  simp [List.mem_append, this]

theorem inCountExcept_step {g : List GNode} {acc : List String} {b m : String}
    (hnd : (gnames g).Nodup) (hb : b ∈ gnames g) (hnb : ¬ b ∈ acc) :
    inCountExcept g acc m =
      inCountExcept g (acc ++ [b]) m + (succsOf g b).count m := by
  induction g with
  | nil => cases (by simpa [gnames] using hb : b ∈ ([] : List String))
  | cons y g' ih =>
      have hcons : gnames (y :: g') = y.name :: gnames g' := rfl
      have hnd2 : y.name ∉ gnames g' ∧ (gnames g').Nodup := by
        rw [hcons] at hnd
        exact List.nodup_cons.mp hnd
      by_cases hyb : y.name = b
      · have hS : succsOf (y :: g') b = y.succs := by
          rw [succsOf, List.find?_cons_of_pos _ (by simpa using hyb)]
          rfl
        have hbg' : ¬ b ∈ gnames g' := hyb ▸ hnd2.1
        have hskip := @inCountExcept_skip g' acc b m hbg'
        rw [hS]
        unfold inCountExcept at hskip ⊢
        rw [List.filter_cons, List.filter_cons,
          if_pos (show (decide (¬ y.name ∈ acc)) = true by simp [hyb]; exact hnb),
          if_neg (show ¬ (decide (¬ y.name ∈ acc ++ [b])) = true by
            simp [hyb, List.mem_append])]
        rw [List.map_cons, List.sum_cons, hskip]
        omega
      · have hS : succsOf (y :: g') b = succsOf g' b := by
          rw [succsOf, List.find?_cons_of_neg _ (by simpa using hyb)]
          rfl
        have hb' : b ∈ gnames g' := by
          rw [hcons] at hb
          rcases List.mem_cons.mp hb with hh | hh
          · exact absurd hh.symm hyb
          · exact hh
        have ih' := ih hnd2.2 hb'
        rw [hS]
        unfold inCountExcept at ih' ⊢
        rw [List.filter_cons, List.filter_cons]
        by_cases hyacc : y.name ∈ acc
        · rw [if_neg (show ¬ (decide (¬ y.name ∈ acc)) = true by simpa using hyacc),
            if_neg (show ¬ (decide (¬ y.name ∈ acc ++ [b])) = true by
              simp [List.mem_append]
              intro hc
              exact absurd hyacc hc)]
          exact ih'
        · rw [if_pos (show (decide (¬ y.name ∈ acc)) = true by simpa using hyacc),
            if_pos (show (decide (¬ y.name ∈ acc ++ [b])) = true by
              simp [List.mem_append, hyacc]
              exact fun hh => hyb hh)]
          rw [List.map_cons, List.sum_cons, List.map_cons, List.sum_cons, ih']
          omega

theorem inCountExcept_mono_zero {g : List GNode} {acc acc' : List String}
    {m : String} (hsub : ∀ x ∈ acc, x ∈ acc')
    (h : inCountExcept g acc m = 0) : inCountExcept g acc' m = 0 := by
  unfold inCountExcept at h ⊢
  rw [List.sum_eq_zero_iff] at h ⊢
  intro x hx
  obtain ⟨y, hy, rfl⟩ := List.mem_map.mp hx
  have hy' := List.mem_filter.mp hy
  have hyg : y ∈ g := hy'.1
  have hyacc : ¬ y.name ∈ acc := by
    intro hc
    have := hy'.2
    simp at this
    exact this (hsub _ hc)
  exact h _ (List.mem_map.mpr ⟨y, List.mem_filter.mpr ⟨hyg, by simpa using hyacc⟩, rfl⟩)

theorem inCountExcept_pos_edge {g : List GNode} {acc : List String} {m : String}
    (hnd : (gnames g).Nodup) (h : 1 ≤ inCountExcept g acc m) :
    ∃ p, EdgeB g p m ∧ ¬ p ∈ acc := by
  unfold inCountExcept at h
  have hne : ¬ ((g.filter fun y => decide (¬ y.name ∈ acc)).map
      (fun y => y.succs.count m)).sum = 0 := by omega
  rw [List.sum_eq_zero_iff] at hne
  push_neg at hne
  obtain ⟨c, hc, hcne⟩ := hne
  obtain ⟨y, hy, rfl⟩ := List.mem_map.mp hc
  have hy' := List.mem_filter.mp hy
  refine ⟨y.name, ?_, by simpa using hy'.2⟩
  unfold EdgeB
  rw [succsOf_eq_of_mem hnd hy'.1]
  exact List.count_pos_iff.mp (by omega)

theorem inCountExcept_zero_edge {g : List GNode} {acc : List String} {m : String}
    (hnd : (gnames g).Nodup) (h : inCountExcept g acc m = 0) :
    ∀ p, EdgeB g p m → p ∈ acc := by
  intro p hp
  by_contra hc
  obtain ⟨x, hfind, hxg, hxn⟩ := find?_name_mem (edge_source_mem hp)
  have hmem : m ∈ x.succs := by
    have : succsOf g p = x.succs := by
      unfold succsOf
      rw [hfind]
      rfl
    rw [EdgeB, this] at hp
    exact hp
  unfold inCountExcept at h
  rw [List.sum_eq_zero_iff] at h
  have := h (x.succs.count m)
    (List.mem_map.mpr ⟨x, List.mem_filter.mpr ⟨hxg, by simpa [hxn] using hc⟩, rfl⟩)
  have hpos := List.count_pos_iff.mpr hmem
  omega

theorem count_flatMap {batch : List String} {f : String → List String}
    {m : String} :
    (batch.flatMap f).count m = (batch.map fun b => (f b).count m).sum := by
  induction batch with
  | nil => rfl
  | cons b rest ih => simp [List.flatMap_cons, List.count_append, ih]

theorem inCountExcept_batch {g : List GNode} {acc batch : List String}
    {m : String} (hnd : (gnames g).Nodup)
    (hb : ∀ b ∈ batch, b ∈ gnames g ∧ ¬ b ∈ acc) (hbnd : batch.Nodup) :
    inCountExcept g acc m =
      inCountExcept g (acc ++ batch) m +
        (batch.map fun b => (succsOf g b).count m).sum := by
  induction batch generalizing acc with
  | nil => simp
  | cons b rest ih =>
      have hb0 := hb b (List.mem_cons_self b rest)
      have hstep := @inCountExcept_step _ acc _ m hnd hb0.1 hb0.2
      have hnd2 := List.nodup_cons.mp hbnd
      have ih' := @ih (acc ++ [b]) (fun x hx =>
        ⟨(hb x (List.mem_cons_of_mem b hx)).1, by
          intro hc
          rcases List.mem_append.mp hc with hc' | hc'
          · exact (hb x (List.mem_cons_of_mem b hx)).2 hc'
          · rcases List.mem_singleton.mp hc' with rfl
            exact hnd2.1 hx⟩) hnd2.2
      rw [hstep, ih', List.append_assoc]
      simp [List.map_cons, List.sum_cons]
      omega

/-! #### `runOccs` -/

theorem done_map_npredsOf {g : List GNode} {s m : String} :
    npredsOf (g.map fun x =>
        if x.name = s then { x with npreds := x.npreds - 1 } else x) m =
      npredsOf g m - (if m = s then 1 else 0) := by
  unfold npredsOf
  rw [find?_map_updIf (f := fun x => { x with npreds := x.npreds - 1 }) (fun _ => rfl)]
  rcases hfind : List.find? (fun z => decide (z.name = m)) g with _ | x
  · rw [hfind]
    simp
  · rw [hfind]
    have hxn : x.name = m := by simpa using List.find?_some hfind
    by_cases hms : m = s
    · subst hms
      simp [hxn]
    · simp [hxn, hms]

theorem done_map_gnames {g : List GNode} {s : String} :
    gnames (g.map fun x =>
        if x.name = s then { x with npreds := x.npreds - 1 } else x) = gnames g :=
  gnames_map_updIf (f := fun x => { x with npreds := x.npreds - 1 }) (fun _ => rfl)

theorem done_map_succsOf {g : List GNode} {s m : String} :
    succsOf (g.map fun x =>
        if x.name = s then { x with npreds := x.npreds - 1 } else x) m =
      succsOf g m := by
  unfold succsOf
  rw [find?_map_updIf (f := fun x => { x with npreds := x.npreds - 1 }) (fun _ => rfl)]
  rcases hfind : List.find? (fun z => decide (z.name = m)) g with _ | x
  · rw [hfind]
    rfl
  · rw [hfind]
    by_cases h : x.name = s <;> simp [h]

theorem doneOne_fst {g : List GNode} {s : String} :
    (doneOne g s).1 =
      g.map fun x => if x.name = s then { x with npreds := x.npreds - 1 } else x := rfl

theorem doneOne_snd {g : List GNode} {s : String} :
    ((doneOne g s).2 = true) ↔ npredsOf g s = 1 := by
  simp [doneOne]

theorem runOccs_cons_fst {g : List GNode} {s : String} {rest : List String} :
    (runOccs g (s :: rest)).1 = (runOccs (doneOne g s).1 rest).1 := rfl

theorem runOccs_cons_snd {g : List GNode} {s : String} {rest : List String} :
    (runOccs g (s :: rest)).2 =
      (if (doneOne g s).2 then [s] else []) ++ (runOccs (doneOne g s).1 rest).2 := rfl

theorem runOccs_gnames {occs : List String} {g : List GNode} :
    gnames (runOccs g occs).1 = gnames g := by
  induction occs generalizing g with
  | nil => rfl
  | cons s rest ih =>
      rw [runOccs_cons_fst, ih, doneOne_fst]
      exact done_map_gnames

theorem runOccs_succsOf {occs : List String} {g : List GNode} {m : String} :
    succsOf (runOccs g occs).1 m = succsOf g m := by
  induction occs generalizing g with
  | nil => rfl
  | cons s rest ih =>
      rw [runOccs_cons_fst, ih, doneOne_fst]
      exact done_map_succsOf

theorem runOccs_npredsOf {occs : List String} {g : List GNode} {m : String} :
    npredsOf (runOccs g occs).1 m = npredsOf g m - occs.count m := by
  induction occs generalizing g with
  | nil => simp [runOccs]
  | cons s rest ih =>
      rw [runOccs_cons_fst, ih, doneOne_fst, done_map_npredsOf]
      by_cases hms : m = s
      · subst hms
        rw [List.count_cons_self, if_pos rfl]
        omega
      · rw [List.count_cons_of_ne (fun hh => hms hh), if_neg hms]
        omega

theorem runOccs_ready_mem {occs : List String} {g : List GNode} {m : String} :
    m ∈ (runOccs g occs).2 ↔
      1 ≤ npredsOf g m ∧ npredsOf g m ≤ occs.count m := by
  induction occs generalizing g with
  | nil =>
      simp [runOccs]
      omega
  | cons s rest ih =>
      rw [runOccs_cons_snd, List.mem_append, ih, doneOne_fst, done_map_npredsOf]
      by_cases hms : m = s
      · subst hms
        have h1 : (m ∈ if (doneOne g m).2 then [m] else ([] : List String)) ↔
            npredsOf g m = 1 := by
          by_cases hc : (doneOne g m).2 = true
          · simp [hc, doneOne_snd.mp hc]
          · have := fun hh => hc (doneOne_snd.mpr hh)
            simp [Bool.not_eq_true] at hc
            simp [hc]
            exact this
        rw [h1, List.count_cons_self, if_pos rfl]
        constructor
        · rintro (h2 | ⟨h2, h3⟩)
          · exact ⟨by omega, by omega⟩
          · exact ⟨by omega, by omega⟩
        · rintro ⟨h2, h3⟩
          by_cases hone : npredsOf g m = 1
          · exact Or.inl hone
          · exact Or.inr ⟨by omega, by omega⟩
      · have h1 : ¬ m ∈ (if (doneOne g s).2 then [s] else ([] : List String)) := by
          by_cases hc : (doneOne g s).2 = true <;> simp [hc, hms]
        rw [List.count_cons_of_ne (fun hh => hms hh), if_neg hms]
        constructor
        · rintro (h2 | ⟨h2, h3⟩)
          · exact absurd h2 h1
          · exact ⟨by omega, by omega⟩
        · rintro ⟨h2, h3⟩
          exact Or.inr ⟨by omega, by omega⟩

theorem runOccs_ready_nodup {occs : List String} {g : List GNode} :
    (runOccs g occs).2.Nodup := by
  induction occs generalizing g with
  | nil => exact List.nodup_nil
  | cons s rest ih =>
      rw [runOccs_cons_snd, List.nodup_append]
      refine ⟨?_, ih, ?_⟩
      · by_cases hc : (doneOne g s).2 = true <;> simp [hc]
      · intro x hx
        by_cases hc : (doneOne g s).2 = true
        · rw [if_pos hc] at hx
          rcases List.mem_singleton.mp hx with rfl
          intro hmem
          have hm := runOccs_ready_mem.mp hmem
          rw [doneOne_fst, done_map_npredsOf] at hm
          have h1 := doneOne_snd.mp hc
          simp [h1] at hm
        · rw [if_neg hc] at hx
          cases hx

/-! ### The Kahn loop invariant -/

/-- Invariant of the `sortLoop` state relative to the initially built table
`g0`: the working table differs from `g0` only in predecessor counts, the
counts record exactly the edges from not-yet-emitted nodes, emitted and
ready names are distinct known names, nodes with no remaining predecessors
have been scheduled, every ready node's predecessors are emitted, and the
emitted order respects the edges. -/
structure LoopInv (g0 g : List GNode) (acc ready : List String) : Prop where
  names_eq : gnames g = gnames g0
  succs_eq : ∀ n, succsOf g n = succsOf g0 n
  counts : ∀ m, npredsOf g m = inCountExcept g0 acc m
  emitted_zero : ∀ n ∈ acc ++ ready, inCountExcept g0 acc n = 0
  sub_names : ∀ n ∈ acc ++ ready, n ∈ gnames g0
  nds : (acc ++ ready).Nodup
  zero_in : ∀ n ∈ gnames g0, inCountExcept g0 acc n = 0 → n ∈ acc ++ ready
  acc_order : ∀ n ∈ acc, ∀ p, EdgeB g0 p n → Before p n acc

theorem LoopInv.ready_pred {g0 g : List GNode} {acc ready : List String}
    (hnd0 : (gnames g0).Nodup) (inv : LoopInv g0 g acc ready) :
    ∀ n ∈ ready, ∀ p, EdgeB g0 p n → p ∈ acc := by
  intro n hn p hp
  exact inCountExcept_zero_edge hnd0
    (inv.emitted_zero n (List.mem_append_right _ hn)) p hp

theorem sortLoop_step {g0 g : List GNode} {acc : List String} {r : String}
    {rs : List String} (hnd0 : (gnames g0).Nodup)
    (hcl : ∀ a q, q ∈ succsOf g0 a → q ∈ gnames g0)
    (inv : LoopInv g0 g acc (r :: rs)) :
    LoopInv g0 (doneList g (r :: rs)).1 (acc ++ r :: rs)
      (doneList g (r :: rs)).2 := by
  have hfun : succsOf g = succsOf g0 := funext inv.succs_eq
  have hocc : doneList g (r :: rs) =
      runOccs g ((r :: rs).flatMap (succsOf g0)) := by
    unfold doneList
    rw [hfun]
  have hnds := List.nodup_append.mp inv.nds
  have hdisj : ∀ b ∈ r :: rs, ¬ b ∈ acc := by
    intro b hb hc
    exact hnds.2.2 hc hb
  have hbmem : ∀ b ∈ r :: rs, b ∈ gnames g0 ∧ ¬ b ∈ acc := by
    intro b hb
    exact ⟨inv.sub_names b (List.mem_append_right _ hb), hdisj b hb⟩
  have hbatch := fun m =>
    @inCountExcept_batch g0 acc (r :: rs) m hnd0 hbmem hnds.2.1
  have hoccCount : ∀ m, ((r :: rs).flatMap (succsOf g0)).count m =
      ((r :: rs).map fun b => (succsOf g0 b).count m).sum := fun m => count_flatMap
  have hcountsNew : ∀ m, npredsOf (doneList g (r :: rs)).1 m =
      inCountExcept g0 (acc ++ r :: rs) m := by
    intro m
    rw [hocc, runOccs_npredsOf, inv.counts m, hoccCount m]
    have := hbatch m
    omega
  have hreadyMem : ∀ m, m ∈ (doneList g (r :: rs)).2 ↔
      (1 ≤ inCountExcept g0 acc m ∧
        inCountExcept g0 acc m ≤ ((r :: rs).map fun b => (succsOf g0 b).count m).sum) := by
    intro m
    rw [hocc, runOccs_ready_mem, inv.counts m, hoccCount m]
  refine ⟨?_, ?_, hcountsNew, ?_, ?_, ?_, ?_, ?_⟩
  · rw [hocc, runOccs_gnames, inv.names_eq]
  · intro n
    rw [hocc, runOccs_succsOf, inv.succs_eq n]
  · intro n hn
    rcases List.mem_append.mp hn with hn' | hn'
    · exact inCountExcept_mono_zero (fun x hx => List.mem_append_left _ hx)
        (inv.emitted_zero n hn')
    · have := (hreadyMem n).mp hn'
      have hb := hbatch n
      omega
  · intro n hn
    rcases List.mem_append.mp hn with hn' | hn'
    · rcases List.mem_append.mp hn' with hn'' | hn''
      · exact inv.sub_names n (List.mem_append_left _ hn'')
      · exact inv.sub_names n (List.mem_append_right _ hn'')
    · have hmm := (hreadyMem n).mp hn'
      have hpos : 1 ≤ ((r :: rs).map fun b => (succsOf g0 b).count n).sum := by omega
      have : n ∈ (r :: rs).flatMap (succsOf g0) := by
        apply List.count_pos_iff.mp
        rw [hoccCount n]
        omega
      obtain ⟨b, _, hnb⟩ := List.mem_flatMap.mp this
      exact hcl b n hnb
  · rw [List.nodup_append]
    refine ⟨inv.nds, by rw [hocc]; exact runOccs_ready_nodup, ?_⟩
    intro x hx hc
    have h0 : inCountExcept g0 acc x = 0 := inv.emitted_zero x hx
    have := (hreadyMem x).mp hc
    omega
  · intro n hn h0
    by_cases hold : inCountExcept g0 acc n = 0
    · exact List.mem_append_left _ (inv.zero_in n hn hold)
    · apply List.mem_append_right
      rw [hreadyMem n]
      have hb := hbatch n
      omega
  · intro n hn p hp
    rcases List.mem_append.mp hn with hn' | hn'
    · exact before_append_right (inv.acc_order n hn' p hp)
    · have hpacc : p ∈ acc := inv.ready_pred hnd0 n hn' p hp
      obtain ⟨l₁, l₂, heq, hnotin⟩ := first_split hpacc
      rw [heq, List.append_assoc]
      exact before_of_append hnotin (List.mem_append_right _ hn')

/-- Everything the loop guarantees about its result: a successful order
extends the already-scheduled names, is a duplicate-free enumeration of all
node names, and respects every edge; a failure reports exactly the
not-emitted names, where the emitted part respects the edges and every
stuck node is waiting on another stuck node. -/
def SortSpec (g0 : List GNode) (acc ready : List String) :
    Except (List String) (List String) → Prop
  | .ok out =>
      (∃ suffix, out = acc ++ ready ++ suffix) ∧ out.Nodup ∧
        (∀ n, n ∈ out ↔ n ∈ gnames g0) ∧
        (∀ n ∈ out, ∀ p, EdgeB g0 p n → Before p n out)
  | .error es =>
      ∃ accF, es = (gnames g0).filter (fun n => decide (¬ n ∈ accF)) ∧
        accF.Nodup ∧ (∃ n ∈ gnames g0, ¬ n ∈ accF) ∧
        (∀ n ∈ accF, ∀ p, EdgeB g0 p n → Before p n accF) ∧
        (∀ n ∈ gnames g0, ¬ n ∈ accF → ∃ p, EdgeB g0 p n ∧ ¬ p ∈ accF)

theorem gnames_length {g : List GNode} : (gnames g).length = g.length :=
  List.length_map g GNode.name

theorem sortLoop_exit {g0 g : List GNode} {acc : List String}
    (hnd0 : (gnames g0).Nodup) (inv : LoopInv g0 g acc []) :
    SortSpec g0 acc []
      (if acc.length = g.length then
        (Except.ok acc : Except (List String) (List String))
      else .error ((gnames g).filter fun n => decide (¬ n ∈ acc))) := by
  have hglen : g.length = (gnames g0).length := by
    rw [← inv.names_eq, gnames_length]
  have haccnd : acc.Nodup := by simpa using inv.nds
  have hsub : ∀ a ∈ acc, a ∈ gnames g0 := by
    intro a ha
    exact inv.sub_names a (by simpa using ha)
  by_cases hlen : acc.length = g.length
  · rw [if_pos hlen]
    show (∃ suffix, acc = acc ++ [] ++ suffix) ∧ acc.Nodup ∧
      (∀ n, n ∈ acc ↔ n ∈ gnames g0) ∧
      (∀ n ∈ acc, ∀ p, EdgeB g0 p n → Before p n acc)
    refine ⟨⟨[], by simp⟩, haccnd, ?_, inv.acc_order⟩
    intro n
    constructor
    · exact hsub n
    · exact fun hn => mem_of_nodup_subset_length haccnd hsub hnd0
        (by omega) n hn
  · rw [if_neg hlen]
    show ∃ accF, (gnames g).filter (fun n => decide (¬ n ∈ acc)) =
        (gnames g0).filter (fun n => decide (¬ n ∈ accF)) ∧
      accF.Nodup ∧ (∃ n ∈ gnames g0, ¬ n ∈ accF) ∧
      (∀ n ∈ accF, ∀ p, EdgeB g0 p n → Before p n accF) ∧
      (∀ n ∈ gnames g0, ¬ n ∈ accF → ∃ p, EdgeB g0 p n ∧ ¬ p ∈ accF)
    refine ⟨acc, by rw [inv.names_eq], haccnd, ?_, inv.acc_order, ?_⟩
    · by_contra hc
      push_neg at hc
      have h1 : (gnames g0).length ≤ acc.length :=
        length_le_of_nodup_subset hnd0 hc
      have h2 : acc.length ≤ (gnames g0).length :=
        length_le_of_nodup_subset haccnd hsub
      omega
    · intro n hn hnacc
      have hne : ¬ inCountExcept g0 acc n = 0 := by
        intro h0
        exact hnacc (by simpa using inv.zero_in n hn h0)
      exact inCountExcept_pos_edge hnd0 (by omega) |>.imp
        (fun p hp => ⟨hp.1, hp.2⟩)

theorem sortLoop_master (g0 : List GNode) (hnd0 : (gnames g0).Nodup)
    (hcl : ∀ a q, q ∈ succsOf g0 a → q ∈ gnames g0) :
    ∀ (fuel : Nat) (g : List GNode) (acc ready : List String),
      LoopInv g0 g acc ready →
      (gnames g0).length + 1 ≤ fuel + acc.length →
      SortSpec g0 acc ready (sortLoop fuel g acc ready) := by
  intro fuel
  induction fuel with
  | zero =>
      intro g acc ready inv hfuel
      cases ready with
      | nil => exact sortLoop_exit hnd0 inv
      | cons r rs =>
          exfalso
          have hb : (acc ++ r :: rs).length ≤ (gnames g0).length :=
            length_le_of_nodup_subset inv.nds inv.sub_names
          rw [List.length_append, List.length_cons] at hb
          omega
  | succ f ih =>
      intro g acc ready inv hfuel
      cases ready with
      | nil => exact sortLoop_exit hnd0 inv
      | cons r rs =>
          have inv' := sortLoop_step hnd0 hcl inv
          have hfuel' : (gnames g0).length + 1 ≤ f + (acc ++ r :: rs).length := by
            rw [List.length_append, List.length_cons]
            omega
          have hspec := ih (doneList g (r :: rs)).1 (acc ++ r :: rs)
            (doneList g (r :: rs)).2 inv' hfuel'
          show SortSpec g0 acc (r :: rs)
            (sortLoop f (doneList g (r :: rs)).1 (acc ++ r :: rs)
              (doneList g (r :: rs)).2)
          rcases hres : sortLoop f (doneList g (r :: rs)).1 (acc ++ r :: rs)
              (doneList g (r :: rs)).2 with es | out
          · rw [hres] at hspec
            exact hspec
          · rw [hres] at hspec
            obtain ⟨⟨suf, hsuf⟩, hnd, hmem, hord⟩ := hspec
            exact ⟨⟨(doneList g (r :: rs)).2 ++ suf,
              by rw [hsuf, List.append_assoc, List.append_assoc]⟩,
              hnd, hmem, hord⟩

/-! ### `static_order` and `sort_assignments` -/

theorem static_order_spec {g0 : List GNode} (hnd0 : (gnames g0).Nodup)
    (hbal : ∀ m, npredsOf g0 m = countSucc g0 m)
    (hcl : ∀ a q, q ∈ succsOf g0 a → q ∈ gnames g0) :
    SortSpec g0 [] ((g0.filter fun x => x.npreds = 0).map GNode.name)
      (static_order g0) := by
  have hcounts : ∀ m, npredsOf g0 m = inCountExcept g0 [] m := by
    intro m
    rw [inCountExcept_nil_acc]
    exact hbal m
  have hready_sub : ∀ n ∈ (g0.filter fun x => x.npreds = 0).map GNode.name,
      n ∈ gnames g0 := by
    intro n hn
    obtain ⟨x, hx, rfl⟩ := List.mem_map.mp hn
    exact mem_gnames.mpr ⟨x, List.mem_of_mem_filter hx, rfl⟩
  have hready_zero : ∀ n ∈ (g0.filter fun x => x.npreds = 0).map GNode.name,
      npredsOf g0 n = 0 := by
    intro n hn
    obtain ⟨x, hx, rfl⟩ := List.mem_map.mp hn
    have hx' := List.mem_filter.mp hx
    rw [npredsOf_eq_of_mem hnd0 hx'.1]
    simpa using hx'.2
  have inv : LoopInv g0 g0 [] ((g0.filter fun x => x.npreds = 0).map GNode.name) := by
    refine ⟨rfl, fun _ => rfl, hcounts, ?_, ?_, ?_, ?_, ?_⟩
    · intro n hn
      rw [← hcounts n]
      exact hready_zero n (by simpa using hn)
    · intro n hn
      exact hready_sub n (by simpa using hn)
    · simp only [List.nil_append]
      have : ((g0.filter fun x => x.npreds = 0).map GNode.name).Sublist (gnames g0) :=
        List.Sublist.map GNode.name (List.filter_sublist g0)
      exact this.nodup hnd0
    · intro n hn h0
      obtain ⟨x, hfind, hxg, hxn⟩ := find?_name_mem hn
      have : npredsOf g0 n = 0 := by rw [hcounts n]; exact h0
      rw [← hxn] at this
      rw [npredsOf_eq_of_mem hnd0 hxg] at this
      apply List.mem_append_right
      exact List.mem_map.mpr ⟨x, List.mem_filter.mpr ⟨hxg, by simpa using this⟩, hxn⟩
    · intro n hn
      cases hn
  have := sortLoop_master g0 hnd0 hcl (g0.length + 1) g0 []
    ((g0.filter fun x => x.npreds = 0).map GNode.name) inv
    (by rw [gnames_length]; omega)
  exact this

/-- With duplicate-free assignment names, the source assignments of a name
form a singleton. -/
theorem filter_name_unique {asgs : List Assignment} {x : Assignment}
    (hnd : (asgs.map Assignment.name).Nodup) (hx : x ∈ asgs) :
    asgs.filter (fun b => decide (b.name = x.name)) = [x] := by
  induction asgs with
  | nil => cases hx
  | cons a rest ih =>
      have hnd' : (∀ z ∈ rest, ¬ Assignment.name z = a.name) ∧
          (List.map Assignment.name rest).Nodup := by
        simpa [List.nodup_cons] using hnd
      rcases List.mem_cons.mp hx with rfl | hx'
      · rw [List.filter_cons, if_pos (by simp)]
        have : rest.filter (fun b => decide (b.name = x.name)) = [] := by
          rw [List.filter_eq_nil_iff]
          intro b hb
          simp
          exact fun hc => hnd'.1 b hb hc
        rw [this]
      · have hax : ¬ a.name = x.name := fun hc => hnd'.1 x hx' hc.symm
        rw [List.filter_cons, if_neg (by simpa using hax)]
        exact ih hnd'.2 hx'

/-- A dependency-free assignment starts with no predecessors in the built
table. -/
theorem buildGraph_no_deps_zero {asgs : List Assignment} {x : Assignment}
    (hnd : (asgs.map Assignment.name).Nodup) (hx : x ∈ asgs)
    (hxd : x.deps = []) : npredsOf (buildGraph asgs) x.name = 0 := by
  rw [buildGraph_npredsOf, filter_name_unique hnd hx]
  simp [hxd]

/-- The initial ready batch, read off the name list. -/
theorem initial_ready_eq {g : List GNode} (hnd : (gnames g).Nodup) :
    (g.filter fun x => x.npreds = 0).map GNode.name =
      (gnames g).filter fun n => decide (npredsOf g n = 0) := by
  induction g with
  | nil => rfl
  | cons y g' ih =>
      have hcons : gnames (y :: g') = y.name :: gnames g' := rfl
      have hnd2 : y.name ∉ gnames g' ∧ (gnames g').Nodup := by
        rw [hcons] at hnd
        exact List.nodup_cons.mp hnd
      have hhead : npredsOf (y :: g') y.name = y.npreds := by
        rw [npredsOf, List.find?_cons_of_pos _ (by simp)]
        rfl
      have htail : ∀ n ∈ gnames g', npredsOf (y :: g') n = npredsOf g' n := by
        intro n hn
        have : ¬ y.name = n := fun hc => hnd2.1 (hc ▸ hn)
        rw [npredsOf, List.find?_cons_of_neg _ (by simpa using this)]
        rfl
      rw [hcons, List.filter_cons, List.filter_cons]
      have hcongr : (gnames g').filter (fun n => decide (npredsOf (y :: g') n = 0)) =
          (gnames g').filter (fun n => decide (npredsOf g' n = 0)) := by
        apply List.filter_congr
        intro n hn
        rw [htail n hn]
      by_cases h0 : y.npreds = 0
      · rw [if_pos (by simpa using h0), if_pos (by simp [hhead, h0]),
          List.map_cons, hcongr, ih hnd2.2]
      · rw [if_neg (by simpa using h0), if_neg (by simp [hhead, h0]),
          hcongr, ih hnd2.2]

/-- Members of a set of mutually-waiting nodes can never appear in an
edge-respecting emission list. -/
theorem cycle_not_mem {g0 : List GNode} {l S : List String}
    (hndl : l.Nodup)
    (hord : ∀ n ∈ l, ∀ p, EdgeB g0 p n → Before p n l)
    (hSc : ∀ n ∈ S, ∃ p ∈ S, EdgeB g0 p n) :
    ∀ n ∈ S, ¬ n ∈ l := by
  have key : ∀ k, ∀ n ∈ S, n ∈ l → posOf n l ≠ k := by
    intro k
    induction k using Nat.strong_induction_on with
    | _ k ih =>
        intro n hnS hnl hpos
        obtain ⟨p, hpS, hedge⟩ := hSc n hnS
        have hb := hord n hnl p hedge
        have hplt := before_posOf_lt hndl hb
        exact ih (posOf p l) (by omega) p hpS (before_mem_left hb) rfl
  intro n hnS hnl
  exact key (posOf n l) n hnS hnl rfl

/-- The dependency relation of an assignment list, as recorded by the
sorter. -/
def AsgEdge (asgs : List Assignment) (p n : String) : Prop :=
  ∃ a ∈ asgs, a.name = n ∧ p ∈ a.deps

/-- If `sort_assignments` returns an order, every assignment is listed and
comes strictly after each of its dependencies that is itself an assignment
name. -/
theorem sort_assignments_ok_before {asgs : List Assignment} {out : List String}
    (h : sort_assignments asgs true = .ok out) :
    (∀ a ∈ asgs, Assignment.name a ∈ out) ∧
      (∀ a ∈ asgs, ∀ d ∈ a.deps, (∃ b ∈ asgs, b.name = d) →
        Before d a.name out) := by
  unfold sort_assignments at h
  rcases hso : static_order (buildGraph asgs) with es | order
  · rw [hso] at h
    cases h
  · rw [hso] at h
    have hout : out = order.filter fun n => decide (n ∈ asgs.map Assignment.name) := by
      cases h
      rfl
    have hwf := buildGraph_TableWF asgs
    have hspec := static_order_spec hwf.1 (fun m => buildGraph_balanced) hwf.2
    rw [hso] at hspec
    obtain ⟨_, hnd, hmem, hord⟩ := hspec
    constructor
    · intro a ha
      rw [hout]
      exact List.mem_filter.mpr ⟨(hmem a.name).mpr (buildGraph_mem a ha),
        by simp; exact ⟨a, ha, rfl⟩⟩
    · intro a ha d hd hdasg
      obtain ⟨b, hb, rfl⟩ := hdasg
      have hedge : EdgeB (buildGraph asgs) b.name a.name :=
        buildGraph_EdgeB.mpr ⟨a, ha, rfl, hd⟩
      have hbefore := hord a.name ((hmem a.name).mpr (buildGraph_mem a ha))
        b.name hedge
      rw [hout]
      exact before_filter _ hbefore
        (by simp; exact ⟨b, hb, rfl⟩)
        (by simp; exact ⟨a, ha, rfl⟩)

/-- If the dependency relation admits a ranking (is acyclic),
`sort_assignments` succeeds. -/
theorem sort_assignments_acyclic_ok {asgs : List Assignment}
    (rank : String → Nat)
    (hr : ∀ a ∈ asgs, ∀ d ∈ a.deps, rank d < rank a.name) :
    ∃ out, sort_assignments asgs true = .ok out := by
  unfold sort_assignments
  rcases hso : static_order (buildGraph asgs) with es | order
  · exfalso
    have hwf := buildGraph_TableWF asgs
    have hspec := static_order_spec hwf.1 (fun m => buildGraph_balanced) hwf.2
    rw [hso] at hspec
    obtain ⟨accF, _, _, ⟨n0, hn0, hn0acc⟩, _, hstall⟩ := hspec
    have key : ∀ k, ∀ n ∈ gnames (buildGraph asgs), ¬ n ∈ accF → rank n ≠ k := by
      intro k
      induction k using Nat.strong_induction_on with
      | _ k ih =>
          intro n hn hnacc hrk
          obtain ⟨p, hedge, hpacc⟩ := hstall n hn hnacc
          obtain ⟨a, ha, han, hpd⟩ := buildGraph_EdgeB.mp hedge
          have hlt : rank p < rank n := han ▸ hr a ha p hpd
          exact ih (rank p) (by omega) p (edge_source_mem hedge) hpacc rfl
    exact key (rank n0) n0 hn0 hn0acc rfl
  · exact ⟨_, rfl⟩

/-- With duplicate-free assignment names, two dependency-free assignments
are emitted in the order of their first mention in the sorter's node
table. -/
theorem sort_assignments_zero_dep_order {asgs : List Assignment}
    {x y : Assignment} {out : List String}
    (hnd : (asgs.map Assignment.name).Nodup)
    (hx : x ∈ asgs) (hy : y ∈ asgs)
    (hxd : x.deps = []) (hyd : y.deps = [])
    (hbefore : Before x.name y.name (gnames (buildGraph asgs)))
    (hok : sort_assignments asgs true = .ok out) :
    Before x.name y.name out := by
  unfold sort_assignments at hok
  rcases hso : static_order (buildGraph asgs) with es | order
  · rw [hso] at hok
    cases hok
  · rw [hso] at hok
    have hout : out = order.filter fun n => decide (n ∈ asgs.map Assignment.name) := by
      cases hok
      rfl
    have hwf := buildGraph_TableWF asgs
    have hspec := static_order_spec hwf.1 (fun m => buildGraph_balanced) hwf.2
    rw [hso] at hspec
    obtain ⟨⟨suffix, hsuf⟩, hndo, hmem, hord⟩ := hspec
    have hready : Before x.name y.name
        (((buildGraph asgs).filter fun z => z.npreds = 0).map GNode.name) := by
      rw [initial_ready_eq hwf.1]
      exact before_filter _ hbefore
        (by simp [buildGraph_no_deps_zero hnd hx hxd])
        (by simp [buildGraph_no_deps_zero hnd hy hyd])
    have horder : Before x.name y.name order := by
      rw [hsuf, List.nil_append]
      exact before_append_right hready
    rw [hout]
    exact before_filter _ horder
      (by simp; exact ⟨x, hx, rfl⟩)
      (by simp; exact ⟨y, hy, rfl⟩)

/-- A set of assignment names in which everyone waits on someone forces
`sort_assignments` to fail, and every participating name is reported. -/
theorem sort_assignments_cycle_error {asgs : List Assignment} {S : List String}
    (hS0 : S ≠ []) (hSn : ∀ n ∈ S, ∃ a ∈ asgs, Assignment.name a = n)
    (hSc : ∀ n ∈ S, ∃ p ∈ S, AsgEdge asgs p n) (b : Bool) :
    ∃ es, sort_assignments asgs b = .error es ∧ ∀ n ∈ S, n ∈ es := by
  have hwf := buildGraph_TableWF asgs
  have hspec := static_order_spec hwf.1 (fun m => buildGraph_balanced) hwf.2
  have hmemS : ∀ n ∈ S, n ∈ gnames (buildGraph asgs) := by
    intro n hn
    obtain ⟨a, ha, rfl⟩ := hSn n hn
    exact buildGraph_mem a ha
  have hedges : ∀ n ∈ S, ∃ p ∈ S, EdgeB (buildGraph asgs) p n := by
    intro n hn
    obtain ⟨p, hpS, hedge⟩ := hSc n hn
    exact ⟨p, hpS, buildGraph_EdgeB.mpr hedge⟩
  unfold sort_assignments
  rcases hso : static_order (buildGraph asgs) with es | order
  · rw [hso] at hspec
    obtain ⟨accF, hes, hndF, _, hordF, _⟩ := hspec
    refine ⟨es, rfl, ?_⟩
    intro n hn
    have hnotin := cycle_not_mem hndF hordF hedges n hn
    rw [hes]
    exact List.mem_filter.mpr ⟨hmemS n hn, by simpa using hnotin⟩
  · exfalso
    rw [hso] at hspec
    obtain ⟨_, hndo, hmem, hord⟩ := hspec
    obtain ⟨n0, hn0⟩ := List.exists_mem_of_ne_nil S hS0
    have hin : n0 ∈ order := (hmem n0).mpr (hmemS n0 hn0)
    exact cycle_not_mem hndo hord hedges n0 hn0 hin

/-! ### Dict, duplicate and completeness lemmas -/

theorem any_key_iff {β : Type} {m : List (String × β)} {k : String} :
    (m.any fun kv => decide (kv.1 = k)) = true ↔ ∃ kv ∈ m, kv.1 = k := by
  rw [List.any_eq_true]
  simp

theorem lookup_map_replace {β : Type} {m : List (String × β)} {k : String}
    {v : β} (h : ∃ kv ∈ m, kv.1 = k) :
    List.lookup k (m.map fun kv => if kv.1 = k then (k, v) else kv) = some v := by
  induction m with
  | nil => obtain ⟨kv, hkv, _⟩ := h; cases hkv
  | cons hd tl ih =>
      by_cases hhd : hd.1 = k
      · simp only [List.map_cons, if_pos hhd]
        simp [List.lookup]
      · simp only [List.map_cons, if_neg hhd]
        have hne : (k == hd.1) = false := by
          simp
          exact fun hh => hhd hh.symm
        simp only [List.lookup, hne]
        apply ih
        obtain ⟨kv, hkv, hk⟩ := h
        rcases List.mem_cons.mp hkv with rfl | h'
        · exact absurd hk hhd
        · exact ⟨kv, h', hk⟩

theorem lookup_append_last {β : Type} {m : List (String × β)} {k : String}
    {v : β} (h : ¬ ∃ kv ∈ m, kv.1 = k) :
    List.lookup k (m ++ [(k, v)]) = some v := by
  induction m with
  | nil => simp [List.lookup]
  | cons hd tl ih =>
      have hhd : ¬ hd.1 = k := fun hc => h ⟨hd, List.mem_cons_self hd tl, hc⟩
      have hne : (k == hd.1) = false := by
        simp
        exact fun hh => hhd hh.symm
      rw [List.cons_append]
      simp only [List.lookup, hne]
      exact ih fun ⟨kv, hkv, hk⟩ => h ⟨kv, List.mem_cons_of_mem hd hkv, hk⟩

/-- A dict assignment wins on lookup of its key. -/
theorem dictInsert_lookup_self {β : Type} {m : List (String × β)} {k : String}
    {v : β} : List.lookup k (dictInsert m k v) = some v := by
  unfold dictInsert
  by_cases h : (m.any fun kv => decide (kv.1 = k)) = true
  · rw [if_pos h]
    exact lookup_map_replace (any_key_iff.mp h)
  · rw [if_neg h]
    exact lookup_append_last fun hc => h (any_key_iff.mpr hc)

theorem nodup_iff_length_dedup {l : List String} :
    l.length = l.dedup.length ↔ l.Nodup := by
  constructor
  · intro h
    have hsub := List.dedup_sublist l
    have heq := hsub.eq_of_length h.symm
    rw [← heq]
    exact List.nodup_dedup l
  · intro h
    rw [List.dedup_eq_self.mpr h]

theorem check_components_ok_iff {cs : List Component} :
    check_components cs = .ok () ↔ ∀ c ∈ cs, c.is_complete = true := by
  induction cs with
  | nil => simp [check_components]
  | cons c rest ih =>
      unfold check_components
      by_cases hc : c.is_complete = true
      · rw [if_pos hc, ih]
        constructor
        · intro h d hd
          rcases List.mem_cons.mp hd with rfl | hd'
          · exact hc
          · exact h d hd'
        · intro h d hd
          exact h d (List.mem_cons_of_mem c hd)
      · rw [if_neg hc]
        constructor
        · intro h
          cases h
        · intro h
          exact absurd (h c (List.mem_cons_self c rest)) hc

theorem check_components_first_error {pre : List Component} {c : Component}
    {post : List Component} (hpre : ∀ p ∈ pre, p.is_complete = true)
    (hc : ¬ c.is_complete = true) :
    check_components (pre ++ c :: post) =
      .error (.componentNotComplete c.name
        (c.states_without_derivatives.map State.name)) := by
  induction pre with
  | nil =>
      rw [List.nil_append]
      unfold check_components
      rw [if_neg hc]
  | cons p rest ih =>
      rw [List.cons_append]
      unfold check_components
      rw [if_pos (hpre p (List.mem_cons_self p rest))]
      exact ih fun q hq => hpre q (List.mem_cons_of_mem p hq)

/-! ### Expression resolution preserves the structural data -/

theorem resolve_intermediates {c : Component} {m : List (String × String)} :
    (Component.intermediates
        { c with assignments := c.assignments.map (Assignment.resolve_expression m) }) =
      c.intermediates.map fun i => { i with expr := i.expr.resolve m } := by
  unfold Component.intermediates
  generalize c.assignments = l
  induction l with
  | nil => rfl
  | cons a rest ih =>
      cases a with
      | interm i =>
          simp only [List.map_cons, Assignment.resolve_expression,
            List.filterMap_cons, ih]
      | deriv d =>
          simp only [List.map_cons, Assignment.resolve_expression,
            List.filterMap_cons, ih]

theorem resolve_state_derivatives {c : Component} {m : List (String × String)} :
    (Component.state_derivatives
        { c with assignments := c.assignments.map (Assignment.resolve_expression m) }) =
      c.state_derivatives.map fun d => { d with expr := d.expr.resolve m } := by
  unfold Component.state_derivatives
  generalize c.assignments = l
  induction l with
  | nil => rfl
  | cons a rest ih =>
      cases a with
      | interm i =>
          simp only [List.map_cons, Assignment.resolve_expression,
            List.filterMap_cons, ih]
      | deriv d =>
          simp only [List.map_cons, Assignment.resolve_expression,
            List.filterMap_cons, ih]

theorem resolve_componentAtoms_names {c : Component} {m : List (String × String)} :
    (componentAtoms
        { c with assignments := c.assignments.map (Assignment.resolve_expression m) }).map
        Atom.name =
      (componentAtoms c).map Atom.name := by
  unfold componentAtoms
  rw [resolve_intermediates, resolve_state_derivatives]
  simp only [List.map_append, List.map_map]
  rfl

theorem resolve_gatherNames {cs : List Component} {m : List (String × String)} :
    gatherNames (resolve_expressions cs m) = gatherNames cs := by
  unfold gatherNames resolve_expressions
  induction cs with
  | nil => rfl
  | cons c rest ih =>
      rw [List.map_cons, List.flatMap_cons, List.flatMap_cons,
        resolve_componentAtoms_names, ih]

theorem resolve_is_complete {c : Component} {m : List (String × String)} :
    (Component.is_complete
        { c with assignments := c.assignments.map (Assignment.resolve_expression m) }) =
      c.is_complete := by
  unfold Component.is_complete
  rw [resolve_state_derivatives]
  apply decide_eq_decide.mpr
  constructor
  · rintro ⟨h1, h2⟩
    refine ⟨?_, ?_⟩
    · intro s hs
      have := h1 s hs
      simpa [Function.comp] using this
    · intro d hd
      have := h2 { d with expr := d.expr.resolve m } (List.mem_map_of_mem _ hd)
      simpa using this
  · rintro ⟨h1, h2⟩
    refine ⟨?_, ?_⟩
    · intro s hs
      have := h1 s hs
      simpa [Function.comp] using this
    · intro d hd
      obtain ⟨d0, hd0, rfl⟩ := List.mem_map.mp hd
      simpa using h2 d0 hd0

theorem resolve_states_without_derivatives {c : Component}
    {m : List (String × String)} :
    (Component.states_without_derivatives
        { c with assignments := c.assignments.map (Assignment.resolve_expression m) }) =
      c.states_without_derivatives := by
  unfold Component.states_without_derivatives
  rw [resolve_state_derivatives]
  apply List.filter_congr
  intro s _
  simp [Function.comp]

theorem resolve_check_components {cs : List Component}
    {m : List (String × String)} :
    check_components (resolve_expressions cs m) = check_components cs := by
  induction cs with
  | nil => rfl
  | cons c rest ih =>
      show check_components
        ({ c with assignments := c.assignments.map (Assignment.resolve_expression m) } ::
          resolve_expressions rest m) = _
      unfold check_components
      rw [resolve_is_complete]
      by_cases hc : c.is_complete = true
      · rw [if_pos hc, if_pos hc]
        exact ih
      · rw [if_neg hc, if_neg hc, resolve_states_without_derivatives]

/-! ### Construction characterizations -/

theorem exists_first_incomplete {cs : List Component}
    (h : ¬ ∀ c ∈ cs, c.is_complete = true) :
    ∃ pre c post, cs = pre ++ c :: post ∧
      (∀ p ∈ pre, p.is_complete = true) ∧ ¬ c.is_complete = true := by
  induction cs with
  | nil => exact absurd (by intro c hc; cases hc) h
  | cons a rest ih =>
      by_cases ha : a.is_complete = true
      · have h' : ¬ ∀ c ∈ rest, c.is_complete = true := by
          intro hc
          apply h
          intro c hcmem
          rcases List.mem_cons.mp hcmem with rfl | hmem
          · exact ha
          · exact hc c hmem
        obtain ⟨pre, c, post, heq, hpre, hc⟩ := ih h'
        refine ⟨a :: pre, c, post, by rw [heq, List.cons_append], ?_, hc⟩
        intro p hp
        rcases List.mem_cons.mp hp with rfl | hp'
        · exact ha
        · exact hpre p hp'
      · refine ⟨[], a, rest, rfl, ?_, ha⟩
        intro p hp
        cases hp

theorem construct_checked {cs : List Component} {t nm : String}
    (hcomp : ∀ c ∈ cs, c.is_complete = true) :
    ODE.construct cs t nm =
      (if (gatherNames cs).length = (gatherNames cs).dedup.length then
        .ok { components := cs, t := t, name := nm,
              symbols := dictInsert (gatherSymbols cs) "time" t,
              lookup := gatherLookup cs }
      else .error (.duplicateSymbol (find_duplicates (gatherNames cs)))) := by
  unfold ODE.construct
  rw [check_components_ok_iff.mpr hcomp]
  rfl

theorem construct_eq_ok {cs : List Component} {t nm : String}
    (hcomp : ∀ c ∈ cs, c.is_complete = true)
    (hnd : (gatherNames cs).Nodup) :
    ODE.construct cs t nm = .ok
      { components := cs, t := t, name := nm,
        symbols := dictInsert (gatherSymbols cs) "time" t,
        lookup := gatherLookup cs } := by
  rw [construct_checked hcomp, if_pos (nodup_iff_length_dedup.mpr hnd)]

theorem construct_error_incomplete {pre : List Component} {c : Component}
    {post : List Component} {t nm : String}
    (hpre : ∀ p ∈ pre, p.is_complete = true) (hc : ¬ c.is_complete = true) :
    ODE.construct (pre ++ c :: post) t nm =
      .error (.componentNotComplete c.name
        (c.states_without_derivatives.map State.name)) := by
  unfold ODE.construct
  rw [check_components_first_error hpre hc]

theorem construct_error_dup {cs : List Component} {t nm : String}
    (hcomp : ∀ c ∈ cs, c.is_complete = true)
    (hdup : ¬ (gatherNames cs).Nodup) :
    ODE.construct cs t nm =
      .error (.duplicateSymbol (find_duplicates (gatherNames cs))) := by
  rw [construct_checked hcomp,
    if_neg fun hl => hdup (nodup_iff_length_dedup.mp hl)]

theorem construct_ok_inv {cs : List Component} {t nm : String} {o : ODE}
    (h : ODE.construct cs t nm = .ok o) :
    o.components = cs ∧ (gatherNames cs).Nodup ∧
      (∀ c ∈ cs, c.is_complete = true) ∧
      o.symbols = dictInsert (gatherSymbols cs) "time" t ∧
      o.lookup = gatherLookup cs := by
  have hcomp : ∀ c ∈ cs, c.is_complete = true := by
    by_contra hc
    obtain ⟨pre, c, post, heq, hpre, hinc⟩ := exists_first_incomplete hc
    rw [heq, construct_error_incomplete hpre hinc] at h
    cases h
  have hnd : (gatherNames cs).Nodup := by
    by_contra hc
    rw [construct_error_dup hcomp hc] at h
    cases h
  have heq := @construct_eq_ok cs t nm hcomp hnd
  rw [h] at heq
  cases heq
  exact ⟨rfl, hnd, hcomp, rfl, rfl⟩

theorem make_ode_checked {cs : List Component} {nm : String}
    (hcomp : ∀ c ∈ cs, c.is_complete = true) :
    make_ode cs nm =
      (if (gatherNames cs).length = (gatherNames cs).dedup.length then
        ODE.construct
          (resolve_expressions cs (dictInsert (gatherSymbols cs) "time" "t")) "t" nm
      else .error (.duplicateSymbol (find_duplicates (gatherNames cs)))) := by
  unfold make_ode
  rw [check_components_ok_iff.mpr hcomp]
  rfl

theorem make_ode_error_incomplete {pre : List Component} {c : Component}
    {post : List Component} {nm : String}
    (hpre : ∀ p ∈ pre, p.is_complete = true) (hc : ¬ c.is_complete = true) :
    make_ode (pre ++ c :: post) nm =
      .error (.componentNotComplete c.name
        (c.states_without_derivatives.map State.name)) := by
  unfold make_ode
  rw [check_components_first_error hpre hc]

theorem make_ode_error_dup {cs : List Component} {nm : String}
    (hcomp : ∀ c ∈ cs, c.is_complete = true)
    (hdup : ¬ (gatherNames cs).Nodup) :
    make_ode cs nm =
      .error (.duplicateSymbol (find_duplicates (gatherNames cs))) := by
  rw [make_ode_checked hcomp,
    if_neg fun hl => hdup (nodup_iff_length_dedup.mp hl)]

theorem make_ode_ok {cs : List Component} {nm : String}
    (hcomp : ∀ c ∈ cs, c.is_complete = true)
    (hnd : (gatherNames cs).Nodup) :
    make_ode cs nm = .ok
      { components := resolve_expressions cs (dictInsert (gatherSymbols cs) "time" "t"),
        t := "t", name := nm,
        symbols := dictInsert
          (gatherSymbols (resolve_expressions cs
            (dictInsert (gatherSymbols cs) "time" "t"))) "time" "t",
        lookup := gatherLookup (resolve_expressions cs
          (dictInsert (gatherSymbols cs) "time" "t")) } := by
  rw [make_ode_checked hcomp, if_pos (nodup_iff_length_dedup.mpr hnd)]
  apply construct_eq_ok
  · intro c hc
    unfold resolve_expressions at hc
    obtain ⟨c0, hc0, rfl⟩ := List.mem_map.mp hc
    rw [resolve_is_complete]
    exact hcomp c0 hc0
  · rw [resolve_gatherNames]
    exact hnd

theorem make_ode_ok_inv {cs : List Component} {nm : String} {o : ODE}
    (h : make_ode cs nm = .ok o) :
    o.components = resolve_expressions cs (dictInsert (gatherSymbols cs) "time" "t") ∧
      (gatherNames o.components).Nodup ∧
      (∀ c ∈ o.components, c.is_complete = true) ∧
      o.symbols = dictInsert (gatherSymbols o.components) "time" "t" ∧
      o.lookup = gatherLookup o.components := by
  have hcomp : ∀ c ∈ cs, c.is_complete = true := by
    by_contra hc
    obtain ⟨pre, c, post, heq, hpre, hinc⟩ := exists_first_incomplete hc
    rw [heq, make_ode_error_incomplete hpre hinc] at h
    cases h
  have hnd : (gatherNames cs).Nodup := by
    by_contra hc
    rw [make_ode_error_dup hcomp hc] at h
    cases h
  have heq := @make_ode_ok cs nm hcomp hnd
  rw [h] at heq
  cases heq
  refine ⟨rfl, ?_, ?_, rfl, rfl⟩
  · show (gatherNames (resolve_expressions cs _)).Nodup
    rw [resolve_gatherNames]
    exact hnd
  · intro c hc
    unfold resolve_expressions at hc
    obtain ⟨c0, hc0, rfl⟩ := List.mem_map.mp hc
    rw [resolve_is_complete]
    exact hcomp c0 hc0

/-! ### `find_duplicates` reports exactly the repeated names -/

theorem mem_foldl_pushNew {l acc : List String} {x : String} :
    x ∈ l.foldl pushNew acc ↔ x ∈ acc ∨ x ∈ l := by
  induction l generalizing acc with
  | nil => simp
  | cons y rest ih =>
      rw [List.foldl_cons, ih]
      unfold pushNew
      by_cases hy : y ∈ acc
      · rw [if_pos hy]
        constructor
        · rintro (h | h)
          · exact Or.inl h
          · exact Or.inr (List.mem_cons_of_mem y h)
        · rintro (h | h)
          · exact Or.inl h
          · rcases List.mem_cons.mp h with rfl | h'
            · exact Or.inl hy
            · exact Or.inr h'
      · rw [if_neg hy]
        simp [List.mem_append, List.mem_cons]
        tauto

theorem find_duplicates_loop_char {l seen dupes : List String} {x : String} :
    (x ∈ (l.foldl
        (fun sd xi =>
          if xi ∈ sd.1 then (sd.1, sd.2 ++ [xi]) else (sd.1 ++ [xi], sd.2))
        (seen, dupes)).2 ↔
      x ∈ dupes ∨ (x ∈ seen ∧ x ∈ l) ∨ 2 ≤ l.count x) := by
  induction l generalizing seen dupes with
  | nil => simp
  | cons y rest ih =>
      rw [List.foldl_cons]
      by_cases hy : y ∈ seen
      · rw [if_pos (by simpa using hy)]
        rw [ih]
        by_cases hxy : x = y
        · subst hxy
          have hxx : x ∈ dupes ++ [x] :=
            List.mem_append_right _ (List.mem_singleton.mpr rfl)
          constructor
          · intro _
            exact Or.inr (Or.inl ⟨hy, List.mem_cons_self x rest⟩)
          · intro _
            exact Or.inl hxx
        · rw [List.count_cons_of_ne (fun hh => hxy hh)]
          constructor
          · rintro (h | h | h)
            · rcases List.mem_append.mp h with h' | h'
              · exact Or.inl h'
              · exact absurd (List.mem_singleton.mp h') hxy
            · exact Or.inr (Or.inl ⟨h.1, List.mem_cons_of_mem y h.2⟩)
            · exact Or.inr (Or.inr h)
          · rintro (h | ⟨h1, h2⟩ | h)
            · exact Or.inl (List.mem_append_left _ h)
            · rcases List.mem_cons.mp h2 with rfl | h2'
              · exact absurd rfl hxy
              · exact Or.inr (Or.inl ⟨h1, h2'⟩)
            · exact Or.inr (Or.inr h)
      · rw [if_neg (by simpa using hy)]
        rw [ih]
        by_cases hxy : x = y
        · subst hxy
          rw [List.count_cons_self]
          have hxrest : x ∈ rest ↔ 1 ≤ rest.count x := by
            rw [← List.count_pos_iff]
            omega
          constructor
          · rintro (h | h | h)
            · exact Or.inl h
            · rcases List.mem_append.mp h.1 with h' | h'
              · exact absurd h' hy
              · have : x ∈ rest := h.2
                right
                right
                have := hxrest.mp this
                omega
            · right
              right
              omega
          · rintro (h | ⟨h1, h2⟩ | h)
            · exact Or.inl h
            · exact absurd h1 hy
            · by_cases hr : x ∈ rest
              · exact Or.inr (Or.inl ⟨List.mem_append_right _ (List.mem_singleton.mpr rfl), hr⟩)
              · have := hxrest
                have h0 : rest.count x = 0 := by
                  by_contra hc
                  exact hr (hxrest.mpr (by omega))
                omega
        · rw [List.count_cons_of_ne (fun hh => hxy hh)]
          constructor
          · rintro (h | h | h)
            · exact Or.inl h
            · rcases List.mem_append.mp h.1 with h' | h'
              · exact Or.inr (Or.inl ⟨h', List.mem_cons_of_mem y h.2⟩)
              · exact absurd (List.mem_singleton.mp h') hxy
            · exact Or.inr (Or.inr h)
          · rintro (h | ⟨h1, h2⟩ | h)
            · exact Or.inl h
            · rcases List.mem_cons.mp h2 with rfl | h2'
              · exact absurd rfl hxy
              · exact Or.inr (Or.inl ⟨List.mem_append_left _ h1, h2'⟩)
            · exact Or.inr (Or.inr h)

/-- `find_duplicates` returns exactly the names occurring at least twice. -/
theorem mem_find_duplicates {l : List String} {x : String} :
    x ∈ find_duplicates l ↔ 2 ≤ l.count x := by
  unfold find_duplicates
  rw [mem_foldl_pushNew, find_duplicates_loop_char]
  simp

/-! ### Sorted views -/

theorem charListLe_total : ∀ a b : List Char,
    charListLe a b = true ∨ charListLe b a = true := by
  intro a
  induction a with
  | nil => intro b; exact Or.inl rfl
  | cons x xs ih =>
      intro b
      cases b with
      | nil => exact Or.inr rfl
      | cons y ys =>
          by_cases h1 : x.toNat < y.toNat
          · left
            simp [charListLe, h1]
          · by_cases h2 : y.toNat < x.toNat
            · right
              simp [charListLe, h1, h2]
            · rcases ih ys with h | h
              · left
                simpa [charListLe, h1, h2] using h
              · right
                have h1' : ¬ y.toNat < x.toNat := h2
                have h2' : ¬ x.toNat < y.toNat := h1
                simpa [charListLe, h1', h2'] using h

theorem charListLe_trans : ∀ a b c : List Char,
    charListLe a b = true → charListLe b c = true → charListLe a c = true := by
  intro a
  induction a with
  | nil => intro b c _ _; rfl
  | cons x xs ih =>
      intro b c hab hbc
      cases b with
      | nil => simp [charListLe] at hab
      | cons y ys =>
          cases c with
          | nil => simp [charListLe] at hbc
          | cons z zs =>
              simp only [charListLe] at hab hbc ⊢
              by_cases hxy : x.toNat < y.toNat
              · by_cases hyz : y.toNat < z.toNat
                · rw [if_pos (show x.toNat < z.toNat by omega)]
                · by_cases hzy : z.toNat < y.toNat
                  · rw [if_neg hyz, if_pos hzy] at hbc
                    exact absurd hbc (by simp)
                  · rw [if_pos (show x.toNat < z.toNat by omega)]
              · by_cases hyx : y.toNat < x.toNat
                · rw [if_neg hxy, if_pos hyx] at hab
                  exact absurd hab (by simp)
                · rw [if_neg hxy, if_neg hyx] at hab
                  by_cases hyz : y.toNat < z.toNat
                  · rw [if_pos (show x.toNat < z.toNat by omega)]
                  · by_cases hzy : z.toNat < y.toNat
                    · rw [if_neg hyz, if_pos hzy] at hbc
                      exact absurd hbc (by simp)
                    · rw [if_neg hyz, if_neg hzy] at hbc
                      rw [if_neg (show ¬ x.toNat < z.toNat by omega),
                        if_neg (show ¬ z.toNat < x.toNat by omega)]
                      exact ih ys zs hab hbc

theorem strLe_total (a b : String) : strLe a b = true ∨ strLe b a = true :=
  charListLe_total a.data b.data

theorem strLe_trans {a b c : String} (h1 : strLe a b = true)
    (h2 : strLe b c = true) : strLe a c = true :=
  charListLe_trans a.data b.data c.data h1 h2

theorem insertOn_perm {α : Type} (f : α → String) (x : α) (l : List α) :
    (insertOn f x l).Perm (x :: l) := by
  induction l with
  | nil => exact List.Perm.refl _
  | cons y ys ih =>
      unfold insertOn
      by_cases h : strLe (f x) (f y) = true
      · rw [if_pos h]
      · rw [if_neg h]
        exact (List.Perm.cons y ih).trans (List.Perm.swap x y ys)

theorem sortOn_perm {α : Type} (f : α → String) (l : List α) :
    (sortOn f l).Perm l := by
  induction l with
  | nil => exact List.Perm.refl _
  | cons x xs ih =>
      unfold sortOn
      exact (insertOn_perm f x (sortOn f xs)).trans (List.Perm.cons x ih)

theorem insertOn_sorted {α : Type} (f : α → String) (x : α) {l : List α}
    (h : l.Pairwise fun a b => strLe (f a) (f b) = true) :
    (insertOn f x l).Pairwise fun a b => strLe (f a) (f b) = true := by
  induction l with
  | nil => simp [insertOn]
  | cons y ys ih =>
      unfold insertOn
      by_cases hle : strLe (f x) (f y) = true
      · rw [if_pos hle]
        refine List.Pairwise.cons ?_ h
        intro b hb
        rcases List.mem_cons.mp hb with rfl | hb'
        · exact hle
        · exact strLe_trans hle ((List.pairwise_cons.mp h).1 b hb')
      · rw [if_neg hle]
        have hyx : strLe (f y) (f x) = true := by
          rcases strLe_total (f x) (f y) with hh | hh
          · exact absurd hh hle
          · exact hh
        have h' := List.pairwise_cons.mp h
        refine List.Pairwise.cons ?_ (ih h'.2)
        intro b hb
        have := (insertOn_perm f x ys).mem_iff.mp hb
        rcases List.mem_cons.mp this with rfl | hb'
        · exact hyx
        · exact h'.1 b hb'

theorem sortOn_sorted {α : Type} (f : α → String) (l : List α) :
    (sortOn f l).Pairwise fun a b => strLe (f a) (f b) = true := by
  induction l with
  | nil => exact List.Pairwise.nil
  | cons x xs ih => exact insertOn_sorted f x ih

theorem mem_setOf {α : Type} [DecidableEq α] {l : List α} {x : α} :
    x ∈ setOf l ↔ x ∈ l := by
  induction l with
  | nil => simp [setOf]
  | cons y ys ih =>
      unfold setOf
      by_cases hy : y ∈ ys
      · rw [if_pos hy, ih]
        constructor
        · exact fun h => List.mem_cons_of_mem y h
        · intro h
          rcases List.mem_cons.mp h with rfl | h'
          · exact hy
          · exact h'
      · rw [if_neg hy]
        rw [List.mem_cons, List.mem_cons, ih]

theorem setOf_eq_self {α : Type} [DecidableEq α] {l : List α}
    (h : l.Nodup) : setOf l = l := by
  induction l with
  | nil => rfl
  | cons y ys ih =>
      have h' := List.nodup_cons.mp h
      unfold setOf
      rw [if_neg h'.1, ih h'.2]

/-! ### The gathered name list splits per atom kind -/

theorem componentAtoms_names (c : Component) :
    (componentAtoms c).map Atom.name =
      c.parameters.map Parameter.name ++ c.states.map State.name ++
        c.intermediates.map Intermediate.name ++
        c.state_derivatives.map StateDerivative.name := by
  unfold componentAtoms
  simp only [List.map_append, List.map_map]
  rfl

theorem gatherNames_perm (cs : List Component) :
    (gatherNames cs).Perm
      ((cs.flatMap fun c => c.parameters.map Parameter.name) ++
        (cs.flatMap fun c => c.states.map State.name) ++
        (cs.flatMap fun c => c.intermediates.map Intermediate.name) ++
        (cs.flatMap fun c => c.state_derivatives.map StateDerivative.name)) := by
  induction cs with
  | nil => exact List.Perm.refl _
  | cons c rest ih =>
      unfold gatherNames at ih ⊢
      rw [List.flatMap_cons, componentAtoms_names]
      simp only [List.flatMap_cons]
      have hshuffle :
          ∀ a b d e A B D E : List String,
            ((a ++ b ++ d ++ e) ++ (A ++ B ++ D ++ E)).Perm
              ((a ++ A) ++ (b ++ B) ++ (d ++ D) ++ (e ++ E)) := by
        intro a b d e A B D E
        rw [← Multiset.coe_eq_coe]
        simp only [← Multiset.coe_add]
        abel
      exact (List.Perm.append (List.Perm.refl _) ih).trans
        (hshuffle _ _ _ _ _ _ _ _)

theorem nodup_append_of_perm {A A' B B' : List String}
    (hA : A.Perm A') (hB : B.Perm B') (h : (A ++ B).Nodup) :
    (A' ++ B').Nodup :=
  ((hA.append hB).nodup h : (A' ++ B').Nodup)

/-- The four name groups extracted from a duplicate-free gathered list. -/
theorem gatherNames_nodup_parts {cs : List Component}
    (h : (gatherNames cs).Nodup) :
    ((cs.flatMap fun c => c.parameters.map Parameter.name) ++
      (cs.flatMap fun c => c.states.map State.name) ++
      (cs.flatMap fun c => c.intermediates.map Intermediate.name) ++
      (cs.flatMap fun c => c.state_derivatives.map StateDerivative.name)).Nodup :=
  (gatherNames_perm cs).nodup h

/-- Specification of one sorted, deduplicated atom view. -/
theorem sorted_view_spec {α : Type} [DecidableEq α] (f : α → String)
    (flat : List α) (hnd : (flat.map f).Nodup) :
    (∀ x, x ∈ sortOn f (setOf flat) ↔ x ∈ flat) ∧
      (sortOn f (setOf flat)).Nodup ∧
      ((sortOn f (setOf flat)).map f).Pairwise
        (fun a b => strLe a b = true ∧ a ≠ b) := by
  have hflat : flat.Nodup := List.Nodup.of_map f hnd
  rw [setOf_eq_self hflat]
  have hperm := sortOn_perm f flat
  refine ⟨fun x => hperm.mem_iff, hperm.symm.nodup hflat, ?_⟩
  have hsorted : ((sortOn f flat).map f).Pairwise fun a b => strLe a b = true :=
    List.pairwise_map.mpr (sortOn_sorted f flat)
  have hnames : ((sortOn f flat).map f).Nodup := (hperm.map f).symm.nodup hnd
  exact List.Pairwise.and hsorted hnames

theorem nodup_parts_split {P S I D : List String}
    (h : (P ++ S ++ I ++ D).Nodup) :
    P.Nodup ∧ S.Nodup ∧ I.Nodup ∧ D.Nodup ∧ (I ++ D).Nodup := by
  have h1 := List.nodup_append.mp h
  have h2 := List.nodup_append.mp h1.1
  have h3 := List.nodup_append.mp h2.1
  refine ⟨h3.1, h3.2.1, h2.2.1, h1.2.1, ?_⟩
  rw [List.nodup_append]
  refine ⟨h2.2.1, h1.2.1, ?_⟩
  intro a ha hb
  exact h1.2.2 (List.mem_append_right _ ha) hb

theorem flatMap_map_names {α : Type} (f : α → String)
    (g : Component → List α) (cs : List Component) :
    (cs.flatMap g).map f = cs.flatMap fun c => (g c).map f := by
  rw [List.map_flatMap]

/-- All four derived views of a duplicate-free ODE: contents, uniqueness and
lexicographic sortedness. -/
theorem ode_views_spec {o : ODE}
    (hnd : (gatherNames o.components).Nodup) :
    ((∀ s, s ∈ o.states ↔ ∃ c ∈ o.components, s ∈ c.states) ∧
        o.states.Nodup ∧
        (o.states.map State.name).Pairwise (fun a b => strLe a b = true ∧ a ≠ b)) ∧
      ((∀ p, p ∈ o.parameters ↔ ∃ c ∈ o.components, p ∈ c.parameters) ∧
        o.parameters.Nodup ∧
        (o.parameters.map Parameter.name).Pairwise
          (fun a b => strLe a b = true ∧ a ≠ b)) ∧
      ((∀ d, d ∈ o.state_derivatives ↔
          ∃ c ∈ o.components, d ∈ c.state_derivatives) ∧
        o.state_derivatives.Nodup ∧
        (o.state_derivatives.map StateDerivative.name).Pairwise
          (fun a b => strLe a b = true ∧ a ≠ b)) ∧
      ((∀ i, i ∈ o.intermediates ↔ ∃ c ∈ o.components, i ∈ c.intermediates) ∧
        o.intermediates.Nodup ∧
        (o.intermediates.map Intermediate.name).Pairwise
          (fun a b => strLe a b = true ∧ a ≠ b)) := by
  have hparts := nodup_parts_split (gatherNames_nodup_parts hnd)
  have hP : ((o.components.flatMap Component.parameters).map Parameter.name).Nodup := by
    rw [flatMap_map_names]
    exact hparts.1
  have hS : ((o.components.flatMap Component.states).map State.name).Nodup := by
    rw [flatMap_map_names]
    exact hparts.2.1
  have hI : ((o.components.flatMap Component.intermediates).map
      Intermediate.name).Nodup := by
    rw [flatMap_map_names]
    exact hparts.2.2.1
  have hD : ((o.components.flatMap Component.state_derivatives).map
      StateDerivative.name).Nodup := by
    rw [flatMap_map_names]
    exact hparts.2.2.2.1
  have hSspec := sorted_view_spec State.name (o.components.flatMap Component.states) hS
  have hPspec := sorted_view_spec Parameter.name
    (o.components.flatMap Component.parameters) hP
  have hDspec := sorted_view_spec StateDerivative.name
    (o.components.flatMap Component.state_derivatives) hD
  have hIspec := sorted_view_spec Intermediate.name
    (o.components.flatMap Component.intermediates) hI
  refine ⟨⟨?_, hSspec.2.1, hSspec.2.2⟩, ⟨?_, hPspec.2.1, hPspec.2.2⟩,
    ⟨?_, hDspec.2.1, hDspec.2.2⟩, ⟨?_, hIspec.2.1, hIspec.2.2⟩⟩
  · intro s
    rw [show o.states = sortOn State.name
      (setOf (o.components.flatMap Component.states)) from rfl, hSspec.1 s,
      List.mem_flatMap]
  · intro p
    rw [show o.parameters = sortOn Parameter.name
      (setOf (o.components.flatMap Component.parameters)) from rfl, hPspec.1 p,
      List.mem_flatMap]
  · intro d
    rw [show o.state_derivatives = sortOn StateDerivative.name
      (setOf (o.components.flatMap Component.state_derivatives)) from rfl,
      hDspec.1 d, List.mem_flatMap]
  · intro i
    rw [show o.intermediates = sortOn Intermediate.name
      (setOf (o.components.flatMap Component.intermediates)) from rfl,
      hIspec.1 i, List.mem_flatMap]

/-- The names of `intermediates + state_derivatives` are duplicate-free for
a duplicate-free ODE. -/
theorem assignmentList_names_nodup {o : ODE}
    (hnd : (gatherNames o.components).Nodup) :
    (o.assignmentList.map Assignment.name).Nodup := by
  have hparts := nodup_parts_split (gatherNames_nodup_parts hnd)
  have hmapeq : o.assignmentList.map Assignment.name =
      o.intermediates.map Intermediate.name ++
        o.state_derivatives.map StateDerivative.name := by
    unfold ODE.assignmentList
    rw [List.map_append, List.map_map, List.map_map]
    rfl
  rw [hmapeq]
  have hpermI : ((o.components.flatMap Component.intermediates).map
      Intermediate.name).Perm (o.intermediates.map Intermediate.name) := by
    have h1 : (setOf (o.components.flatMap Component.intermediates)) =
        o.components.flatMap Component.intermediates :=
      setOf_eq_self (List.Nodup.of_map _ (by
        rw [flatMap_map_names]
        exact hparts.2.2.1))
    have hstep := (sortOn_perm Intermediate.name
      (setOf (o.components.flatMap Component.intermediates))).map Intermediate.name
    have hset : ((setOf (o.components.flatMap Component.intermediates)).map
        Intermediate.name).Perm
        ((o.components.flatMap Component.intermediates).map Intermediate.name) := by
      rw [h1]
    exact (hstep.trans hset).symm
  have hpermD : ((o.components.flatMap Component.state_derivatives).map
      StateDerivative.name).Perm (o.state_derivatives.map StateDerivative.name) := by
    have h1 : (setOf (o.components.flatMap Component.state_derivatives)) =
        o.components.flatMap Component.state_derivatives :=
      setOf_eq_self (List.Nodup.of_map _ (by
        rw [flatMap_map_names]
        exact hparts.2.2.2.1))
    have hstep := (sortOn_perm StateDerivative.name
      (setOf (o.components.flatMap Component.state_derivatives))).map
        StateDerivative.name
    have hset : ((setOf (o.components.flatMap Component.state_derivatives)).map
        StateDerivative.name).Perm
        ((o.components.flatMap Component.state_derivatives).map
          StateDerivative.name) := by
      rw [h1]
    exact (hstep.trans hset).symm
  apply nodup_append_of_perm hpermI hpermD
  have hID : ((o.components.flatMap Component.intermediates).map Intermediate.name ++
      (o.components.flatMap Component.state_derivatives).map
        StateDerivative.name).Nodup := by
    rw [flatMap_map_names, flatMap_map_names]
    exact hparts.2.2.2.2
  exact hID

/-! ### Remaining small helpers -/

theorem lists_ne_exists_get {α : Type} {l₁ l₂ : List α}
    (hlen : l₁.length = l₂.length) (hne : l₁ ≠ l₂) :
    ∃ i h₁ h₂, l₁.get ⟨i, h₁⟩ ≠ l₂.get ⟨i, h₂⟩ := by
  by_contra hc
  push_neg at hc
  exact hne (List.ext_get hlen hc)

/-- Pull an `ok` payload out of a construction result. -/
def okOr (e : Except OdeError ODE) (d : ODE) : ODE :=
  match e with
  | .ok o => o
  | .error _ => d

/-! ## The claims -/

/-- C2: for every complete, duplicate-free component set whose assignment
dependency graph is acyclic (witnessed by a ranking of the names),
`sorted_assignments` returns an order in which every assignment appears, and
appears strictly after every assignment-name occurring among its
dependencies; state and parameter names impose no constraint (only
dependencies that are assignment names are constrained). -/
theorem claim_C2_sorted_assignments_topological
    {cs : List Component} {nm : String} {ode : ODE}
    (hok : make_ode cs nm = .ok ode)
    (rank : String → Nat)
    (hacyc : ∀ a ∈ ode.assignmentList, ∀ d ∈ a.deps, rank d < rank a.name) :
    ∃ out, ode.sorted_assignment_names = .ok out ∧
      (∀ a ∈ ode.assignmentList, Assignment.name a ∈ out) ∧
      (∀ a ∈ ode.assignmentList, ∀ d ∈ a.deps,
        (∃ b ∈ ode.assignmentList, b.name = d) → Before d a.name out) := by
  obtain ⟨out, hout⟩ := sort_assignments_acyclic_ok rank hacyc
  have hprops := sort_assignments_ok_before hout
  exact ⟨out, hout, hprops.1, hprops.2⟩

def w2_x : State := ⟨"x", 1, "x"⟩
def w2_y : State := ⟨"y", 2, "y"⟩
def w2_comp : Component :=
  ⟨"main", [w2_x, w2_y], [],
    [.interm ⟨"w", .num 1, "w"⟩,
     .deriv ⟨"dx_dt", .sym "w", w2_x, "dx_dt"⟩,
     .deriv ⟨"dy_dt", .num 0, w2_y, "dy_dt"⟩]⟩
def w2_ode : ODE := okOr (make_ode [w2_comp]) default
def w2_rank (n : String) : Nat := if n = "w" then 0 else 1

/-- Witness for C2 at a two-state model with one intermediate. -/
theorem claim_C2_witness :
    ∃ out, w2_ode.sorted_assignment_names = .ok out ∧
      (∀ a ∈ w2_ode.assignmentList, Assignment.name a ∈ out) ∧
      (∀ a ∈ w2_ode.assignmentList, ∀ d ∈ a.deps,
        (∃ b ∈ w2_ode.assignmentList, b.name = d) → Before d a.name out) :=
  @claim_C2_sorted_assignments_topological [w2_comp] "ODE" w2_ode
    rfl w2_rank (by decide)

/-- C4: an assignment set containing a set of names in which every member
depends on another member (a cycle) makes `sort_assignments` fail with an
error listing every participating name; no order is returned. -/
theorem claim_C4_dependency_cycle {asgs : List Assignment} {S : List String}
    (hS0 : S ≠ [])
    (hSn : ∀ n ∈ S, ∃ a ∈ asgs, Assignment.name a = n)
    (hSc : ∀ n ∈ S, ∃ p ∈ S, AsgEdge asgs p n) (b : Bool) :
    ∃ es, sort_assignments asgs b = .error es ∧ ∀ n ∈ S, n ∈ es :=
  sort_assignments_cycle_error hS0 hSn hSc b

def w4_asgs : List Assignment :=
  [.interm ⟨"a", .sym "b", "a"⟩, .interm ⟨"b", .sym "a", "b"⟩]

/-- Witness for C4 at the two-name mutual dependency. -/
theorem claim_C4_witness :
    ∃ es, sort_assignments w4_asgs true = .error es ∧
      ∀ n ∈ ["a", "b"], n ∈ es :=
  claim_C4_dependency_cycle (by decide) (by decide)
    (by unfold AsgEdge; decide) true

/-- C3: when the components are all complete and some atom name repeats
across the gathered parameters, states, intermediates and state
derivatives, `make_ode` fails with `DuplicateSymbol` whose payload holds
exactly the names occurring at least twice; in the source the check sits
before `resolve_expressions` is called and before any sort is attempted. -/
theorem claim_C3_duplicate_symbol {cs : List Component} {nm : String}
    (hcomp : ∀ c ∈ cs, c.is_complete = true)
    (hdup : ∃ n, 2 ≤ (gatherNames cs).count n) :
    ∃ ds, make_ode cs nm = .error (.duplicateSymbol ds) ∧
      ∀ n, n ∈ ds ↔ 2 ≤ (gatherNames cs).count n := by
  have hnd : ¬ (gatherNames cs).Nodup := by
    intro hc
    obtain ⟨n, hn⟩ := hdup
    have := List.nodup_iff_count_le_one.mp hc n
    omega
  exact ⟨find_duplicates (gatherNames cs), make_ode_error_dup hcomp hnd,
    fun n => mem_find_duplicates⟩

def w3_compA : Component := ⟨"A", [], [⟨"k", 1, "k"⟩], []⟩
def w3_compB : Component := ⟨"B", [], [⟨"k", 2, "k"⟩], []⟩

/-- Witness for C3: two components each defining a parameter `k`. -/
theorem claim_C3_witness :
    ∃ ds, make_ode [w3_compA, w3_compB] = .error (.duplicateSymbol ds) ∧
      ∀ n, n ∈ ds ↔ 2 ≤ (gatherNames [w3_compA, w3_compB]).count n :=
  claim_C3_duplicate_symbol (by decide) ⟨"k", by decide⟩

/-- C5 counterexample: the first component `A` is incomplete (it carries a
derivative for a state it does not own) but has no state lacking a
derivative, while `B` has the state `b` lacking one; `make_ode` reports `A`
with an empty missing list, not `B` with `["b"]` as the claim, read at the
component `B`, requires. -/
def c5_sA : State := ⟨"a", 0, "a"⟩
def c5_tX : State := ⟨"tx", 0, "tx"⟩
def c5_compA : Component :=
  ⟨"A", [c5_sA], [],
    [.deriv ⟨"da_dt", .num 0, c5_sA, "da_dt"⟩,
     .deriv ⟨"dtx_dt", .num 0, c5_tX, "dtx_dt"⟩]⟩
def c5_compB : Component := ⟨"B", [⟨"b", 0, "b"⟩], [], []⟩

theorem claim_C5_counterexample :
    make_ode [c5_compA, c5_compB] =
        .error (.componentNotComplete "A" []) ∧
      OdeError.componentNotComplete "A" [] ≠
        OdeError.componentNotComplete "B" ["b"] := by
  constructor
  · rfl
  · decide

/-- C5 (amended): `make_ode` and the `ODE` constructor report the first
component that is not complete, naming it and listing the names of its
states missing derivatives, and they do so regardless of duplicate names
(the completeness check runs before the duplicate-name check). -/
theorem claim_C5_first_incomplete {nm : String}
    {pre : List Component} {c : Component} {post : List Component}
    (hpre : ∀ p ∈ pre, p.is_complete = true)
    (hc : ¬ c.is_complete = true) :
    make_ode (pre ++ c :: post) nm =
        .error (.componentNotComplete c.name
          (c.states_without_derivatives.map State.name)) ∧
      ODE.construct (pre ++ c :: post) "t" nm =
        .error (.componentNotComplete c.name
          (c.states_without_derivatives.map State.name)) ∧
      ∀ n, n ∈ c.states_without_derivatives.map State.name ↔
        ∃ s ∈ c.states, s.name = n ∧
          ¬ s.name ∈ c.state_derivatives.map (fun d => d.state.name) := by
  refine ⟨make_ode_error_incomplete hpre hc,
    construct_error_incomplete hpre hc, ?_⟩
  intro n
  unfold Component.states_without_derivatives
  constructor
  · intro h
    obtain ⟨s, hs, rfl⟩ := List.mem_map.mp h
    have hs' := List.mem_filter.mp hs
    exact ⟨s, hs'.1, rfl, by simpa using hs'.2⟩
  · rintro ⟨s, hs, rfl, hmiss⟩
    exact List.mem_map.mpr ⟨s, List.mem_filter.mpr ⟨hs, by simpa using hmiss⟩, rfl⟩

def w5_good : Component := ⟨"G", [], [⟨"p", 1, "p"⟩], []⟩
def w5_bad : Component := ⟨"H", [⟨"h", 0, "h"⟩], [], []⟩

/-- Witness for the amended C5. -/
theorem claim_C5_witness :
    make_ode ([w5_good] ++ w5_bad :: []) "ODE" =
        .error (.componentNotComplete "H"
          (w5_bad.states_without_derivatives.map State.name)) ∧
      ODE.construct ([w5_good] ++ w5_bad :: []) "t" "ODE" =
        .error (.componentNotComplete "H"
          (w5_bad.states_without_derivatives.map State.name)) ∧
      ∀ n, n ∈ w5_bad.states_without_derivatives.map State.name ↔
        ∃ s ∈ w5_bad.states, s.name = n ∧
          ¬ s.name ∈ w5_bad.state_derivatives.map (fun d => d.state.name) :=
  claim_C5_first_incomplete (by decide) (by decide)

/-- C1: at this two-state model the generated `rhs` writes `dy_dt`'s
expression to `values[0]` and `dx_dt`'s to `values[1]` (the running counter
follows the topological order `w, dy_dt, dx_dt`), while the state-index map
puts state `x` at position 0 and `y` at 1; so the derivative of `x` is not
written at the index of `x`. -/
def c1_x : State := ⟨"x", 1, "x"⟩
def c1_y : State := ⟨"y", 2, "y"⟩
def c1_comp : Component :=
  ⟨"main", [c1_x, c1_y], [],
    [.interm ⟨"w", .num 1, "w"⟩,
     .deriv ⟨"dx_dt", .sym "w", c1_x, "dx_dt"⟩,
     .deriv ⟨"dy_dt", .num 0, c1_y, "dy_dt"⟩]⟩
def c1_ode : ODE := okOr (make_ode [c1_comp]) default

theorem claim_C1_rhs_misindexed :
    make_ode [c1_comp] = .ok c1_ode ∧
      c1_ode.state_index_data = [("x", 0), ("y", 1)] ∧
      c1_ode.rhsValues = .ok
        [(.sym "w", .num 1), (.valuesIdx 0, .num 0), (.valuesIdx 1, .sym "w")] ∧
      c1_ode.state_derivatives.map (fun d => (d.name, d.state.name)) =
        [("dx_dt", "x"), ("dy_dt", "y")] := by
  refine ⟨rfl, rfl, rfl, rfl⟩

/-- C6 counterexample: the sorter is fed the intermediates first (`b`),
then the state derivatives (`da_dt`), both dependency-free; the emitted
order is `b, da_dt`, not the `da_dt, b` that the claimed
state-derivatives-then-intermediates processing order would produce. -/
def c6_a : State := ⟨"a", 0, "a"⟩
def c6_comp : Component :=
  ⟨"m", [c6_a], [],
    [.deriv ⟨"da_dt", .num 0, c6_a, "da_dt"⟩,
     .interm ⟨"b", .num 1, "b"⟩]⟩
def c6_ode : ODE := okOr (make_ode [c6_comp]) default

theorem claim_C6_counterexample :
    make_ode [c6_comp] = .ok c6_ode ∧
      c6_ode.sorted_assignment_names = .ok ["b", "da_dt"] ∧
      (["b", "da_dt"] : List String) ≠ ["da_dt", "b"] := by
  refine ⟨rfl, rfl, by decide⟩

/-- C6 (amended): the topological sort is a deterministic function of the
assignment list alone, so repeated sorts reproduce the same output; and
ties among dependency-free assignments — the nodes of the initial ready
batch — are broken by first mention in the sorter's node table, which is
fed the name-sorted intermediates of all components followed by the
name-sorted state derivatives of all components (pooled across components,
so component order and within-component declaration order play no role).
Ties arising in later batches are outside this statement's scope. -/
theorem claim_C6_tie_break {cs : List Component} {nm : String} {ode : ODE}
    {x y : Assignment} {out : List String}
    (hok : make_ode cs nm = .ok ode)
    (hx : x ∈ ode.assignmentList) (hy : y ∈ ode.assignmentList)
    (hxd : x.deps = []) (hyd : y.deps = [])
    (hment : Before x.name y.name (gnames (buildGraph ode.assignmentList)))
    (hsort : ode.sorted_assignment_names = .ok out) :
    Before x.name y.name out ∧
      ∀ (o : ODE) (b : Bool), o.assignmentList = ode.assignmentList →
        o.sorted_assignment_names b = ode.sorted_assignment_names b := by
  obtain ⟨_, hnd, _, _, _⟩ := make_ode_ok_inv hok
  refine ⟨sort_assignments_zero_dep_order (assignmentList_names_nodup hnd)
    hx hy hxd hyd hment hsort, ?_⟩
  intro o b h
  unfold ODE.sorted_assignment_names
  rw [h]

def w6_a : State := ⟨"a", 0, "a"⟩
def w6_comp : Component :=
  ⟨"m", [w6_a], [],
    [.deriv ⟨"da_dt", .num 0, w6_a, "da_dt"⟩,
     .interm ⟨"b", .num 1, "b"⟩]⟩
def w6_ode : ODE := okOr (make_ode [w6_comp]) default

/-- Witness for the amended C6: the intermediate `b` is mentioned before
the derivative `da_dt` and is emitted first, and any ODE with the same
assignment list sorts identically. -/
theorem claim_C6_witness :
    Before "b" "da_dt" ["b", "da_dt"] ∧
      ∀ (o : ODE) (b : Bool), o.assignmentList = w6_ode.assignmentList →
        o.sorted_assignment_names b = w6_ode.sorted_assignment_names b :=
  @claim_C6_tie_break [w6_comp] "ODE" w6_ode
    (Assignment.interm ⟨"b", .num 1, "b"⟩)
    (Assignment.deriv ⟨"da_dt", .num 0, w6_a, "da_dt"⟩)
    ["b", "da_dt"]
    rfl (by decide) (by decide) (by decide) (by decide) (by decide) rfl

/-- C7: for every ODE accepted by the constructor, the four derived views
hold exactly the corresponding atoms of the components, each exactly once,
in strictly increasing lexicographic name order. -/
theorem claim_C7_sorted_views {cs : List Component} {t nm : String} {ode : ODE}
    (hok : ODE.construct cs t nm = .ok ode) :
    ((∀ s, s ∈ ode.states ↔ ∃ c ∈ ode.components, s ∈ c.states) ∧
        ode.states.Nodup ∧
        (ode.states.map State.name).Pairwise
          (fun a b => strLe a b = true ∧ a ≠ b)) ∧
      ((∀ p, p ∈ ode.parameters ↔ ∃ c ∈ ode.components, p ∈ c.parameters) ∧
        ode.parameters.Nodup ∧
        (ode.parameters.map Parameter.name).Pairwise
          (fun a b => strLe a b = true ∧ a ≠ b)) ∧
      ((∀ d, d ∈ ode.state_derivatives ↔
          ∃ c ∈ ode.components, d ∈ c.state_derivatives) ∧
        ode.state_derivatives.Nodup ∧
        (ode.state_derivatives.map StateDerivative.name).Pairwise
          (fun a b => strLe a b = true ∧ a ≠ b)) ∧
      ((∀ i, i ∈ ode.intermediates ↔ ∃ c ∈ ode.components, i ∈ c.intermediates) ∧
        ode.intermediates.Nodup ∧
        (ode.intermediates.map Intermediate.name).Pairwise
          (fun a b => strLe a b = true ∧ a ≠ b)) := by
  obtain ⟨hco, hnd, _, _, _⟩ := construct_ok_inv hok
  exact ode_views_spec (by rw [hco]; exact hnd)

def w7_sA : State := ⟨"u", 3, "u"⟩
def w7_comp : Component :=
  ⟨"m", [w7_sA], [⟨"q", 4, "q"⟩],
    [.deriv ⟨"du_dt", .num 0, w7_sA, "du_dt"⟩,
     .interm ⟨"v", .num 1, "v"⟩]⟩
def w7_ode : ODE := okOr (ODE.construct [w7_comp] "t" "ODE") default

/-- Witness for C7. -/
theorem claim_C7_witness :
    ((∀ s, s ∈ w7_ode.states ↔ ∃ c ∈ w7_ode.components, s ∈ c.states) ∧
        w7_ode.states.Nodup ∧
        (w7_ode.states.map State.name).Pairwise
          (fun a b => strLe a b = true ∧ a ≠ b)) ∧
      ((∀ p, p ∈ w7_ode.parameters ↔ ∃ c ∈ w7_ode.components, p ∈ c.parameters) ∧
        w7_ode.parameters.Nodup ∧
        (w7_ode.parameters.map Parameter.name).Pairwise
          (fun a b => strLe a b = true ∧ a ≠ b)) ∧
      ((∀ d, d ∈ w7_ode.state_derivatives ↔
          ∃ c ∈ w7_ode.components, d ∈ c.state_derivatives) ∧
        w7_ode.state_derivatives.Nodup ∧
        (w7_ode.state_derivatives.map StateDerivative.name).Pairwise
          (fun a b => strLe a b = true ∧ a ≠ b)) ∧
      ((∀ i, i ∈ w7_ode.intermediates ↔
          ∃ c ∈ w7_ode.components, i ∈ c.intermediates) ∧
        w7_ode.intermediates.Nodup ∧
        (w7_ode.intermediates.map Intermediate.name).Pairwise
          (fun a b => strLe a b = true ∧ a ≠ b)) :=
  @claim_C7_sorted_views [w7_comp] "t" "ODE" w7_ode rfl

/-- C8: the `rhs` generator emits exactly the same assignment equations, in
the same order, for every argument order and every per-target
`_rhs_arguments` implementation; the order input only affects the argument
list and the unpacking prologue. -/
theorem claim_C8_order_noninterference (f : RHSArgumentOrder → RHSSig)
    (o : ODE) (o1 o2 : RHSArgumentOrder) :
    (generateRhs f o o1).values = (generateRhs f o o2).values ∧
      (generateRhs f o o1).values = o.rhsValues :=
  ⟨rfl, rfl⟩

/-- C9: the vector assigned by `initial_state_values` is ordered by the
name-sorted state derivatives (entry `i` holds
`state_derivatives[i].state.value`) while the state names and values listed
alongside follow the name-sorted states; whenever the two orders place the
underlying states differently, some vector position holds the value of a
state other than the state the index map assigns there. -/
theorem claim_C9_initial_values_misorder {cs : List Component} {nm : String}
    {ode : ODE} (hok : make_ode cs nm = .ok ode)
    (hlen : ode.state_derivatives.length = ode.states.length)
    (hdiff : ode.state_derivatives.map (fun d => d.state) ≠ ode.states) :
    ode.initial_state_values.vector =
        ode.state_derivatives.map (fun d => d.state.value) ∧
      ode.initial_state_values.state_names = ode.states.map State.name ∧
      ∃ i h₁ h₂, (ode.state_derivatives.get ⟨i, h₁⟩).state ≠
        ode.states.get ⟨i, h₂⟩ := by
  refine ⟨rfl, rfl, ?_⟩
  have hlen' : (ode.state_derivatives.map (fun d => d.state)).length =
      ode.states.length := by
    rw [List.length_map]
    exact hlen
  obtain ⟨i, h₁, h₂, hne⟩ := lists_ne_exists_get hlen' hdiff
  refine ⟨i, by simpa using h₁, h₂, ?_⟩
  intro hc
  apply hne
  rw [List.get_map]
  exact hc

def w9_a : State := ⟨"a", 5, "a"⟩
def w9_b : State := ⟨"b", 7, "b"⟩
def w9_comp : Component :=
  ⟨"m", [w9_a, w9_b], [],
    [.deriv ⟨"z_da", .num 0, w9_a, "z_da"⟩,
     .deriv ⟨"b_d", .num 0, w9_b, "b_d"⟩]⟩
def w9_ode : ODE := okOr (make_ode [w9_comp]) default

/-- Witness for C9: sorting the derivatives `b_d, z_da` by their own names
orders the states as `b, a` while the states sort as `a, b`. -/
theorem claim_C9_witness :
    w9_ode.initial_state_values.vector =
        w9_ode.state_derivatives.map (fun d => d.state.value) ∧
      w9_ode.initial_state_values.state_names = w9_ode.states.map State.name ∧
      ∃ i h₁ h₂, (w9_ode.state_derivatives.get ⟨i, h₁⟩).state ≠
        w9_ode.states.get ⟨i, h₂⟩ :=
  @claim_C9_initial_values_misorder [w9_comp] "ODE" w9_ode
    rfl (by decide) (by decide)

/-- C10: a duplicate-free, complete component set may contain an atom named
`time`; `make_ode` succeeds without a `DuplicateSymbol` error and the
resulting symbol table binds `time` to the freshly created time symbol `t`,
not to any other symbol (in particular not to the atom's own symbol when
that differs from `t`). -/
theorem claim_C10_time_binding {cs : List Component} {nm : String}
    (hcomp : ∀ c ∈ cs, c.is_complete = true)
    (hnd : (gatherNames cs).Nodup)
    (htime : "time" ∈ gatherNames cs) :
    ∃ ode, make_ode cs nm = .ok ode ∧
      List.lookup "time" ode.symbols = some "t" ∧
      ∀ σ, σ ≠ "t" → ¬ List.lookup "time" ode.symbols = some σ := by
  refine ⟨_, make_ode_ok hcomp hnd, dictInsert_lookup_self, ?_⟩
  intro σ hσ hc
  rw [dictInsert_lookup_self] at hc
  cases hc
  exact hσ rfl

def w10_comp : Component := ⟨"m", [], [⟨"time", 9, "time"⟩], []⟩

/-- Witness for C10: a component defining a parameter literally named
`time`. -/
theorem claim_C10_witness :
    ∃ ode, make_ode [w10_comp] "ODE" = .ok ode ∧
      List.lookup "time" ode.symbols = some "t" ∧
      ∀ σ, σ ≠ "t" → ¬ List.lookup "time" ode.symbols = some σ :=
  claim_C10_time_binding (by decide) (by decide) (by decide)

end Gotranx
